import Mathlib

/-!
# Shallow embedding of `sw/kmeans.hpp` (class `Kmeans<T, T2>`)

The coordinate type `T` and the distance type `T2` of the template are modelled as
unsigned machine integers of `wT` and `w2` bits whose rank is at least that of
`unsigned int`: every arithmetic result of type `T` is reduced modulo `2 ^ wT`, every
result of type `T2` modulo `2 ^ w2`, and every `uint32_t` result modulo `2 ^ 32`.
Buffers are lists of naturals. An access outside a buffer is undefined behaviour in the
source; the embedding reports it as the fault `outOfBounds`. The loops of the source
whose counter advances by `mDimensions` need not terminate when their 32-bit bound or
counter wraps, so they take fuel and report `outOfFuel` when it runs out.
The timing field `mDurationUs` is not modelled.
-/

namespace KmeansSw

/-- Ways in which an execution of the embedded code can fail to produce a value. -/
inductive Fault where
  | outOfBounds
  | outOfFuel
  deriving DecidableEq, Repr

instance {α : Type} [DecidableEq α] : DecidableEq (Except Fault α)
  | .ok a, .ok b => decidable_of_iff (a = b) (by simp)
  | .error a, .error b => decidable_of_iff (a = b) (by simp)
  | .ok _, .error _ => isFalse (by simp)
  | .error _, .ok _ => isFalse (by simp)

/-- Reduction of an unsigned 32-bit (`uint32_t`) result. -/
def wrap32 (n : Nat) : Nat := n % 4294967296

/-- Read `xs[i]`; outside the buffer the source has undefined behaviour. -/
def readAt (xs : List Nat) (i : Nat) : Except Fault Nat :=
  match xs[i]? with
  | some v => .ok v
  | none => .error .outOfBounds

/-- Write `xs[i] = v`; outside the buffer the source has undefined behaviour. -/
def writeAt (xs : List Nat) (i v : Nat) : Except Fault (List Nat) :=
  if i < xs.length then .ok (xs.set i v) else .error .outOfBounds

/-- The loop `for (uint32_t i = start; i < start + n; ++i) body`: `n` rounds, the counter
going up from `i`, stopping at the first fault. -/
def forUp {σ : Type} (body : Nat → σ → Except Fault σ) : Nat → Nat → σ → Except Fault σ
  | 0, _, s => .ok s
  | n + 1, i, s => body i s >>= forUp body n (i + 1)

/-- The loop `for (uint32_t p = p0; p < bound; p += step) body`, with a 32-bit counter
that wraps; `fuel` bounds the number of times the loop test is evaluated. -/
def strideLoop {σ : Type} (bound step : Nat) (body : Nat → σ → Except Fault σ) :
    Nat → Nat → σ → Except Fault σ
  | 0, _, _ => .error .outOfFuel
  | fuel + 1, p, s =>
    if p < bound then body p s >>= strideLoop bound step body fuel (wrap32 (p + step))
    else .ok s

/-- The engine: `mPoints` is the caller's buffer, the other three buffers are the
engine's own; `mSize`, `mClusters` and `mDimensions` are `uint32_t`. -/
structure Kmeans where
  mPoints : List Nat
  mCentroids : List Nat
  mAccu : List Nat
  mAssigned : List Nat
  mSize : Nat
  mClusters : Nat
  mDimensions : Nat
  deriving DecidableEq, Repr

/-- `Kmeans::euclideanDist(p1, p2)` with `p1 = &b1[o1]` and `p2 = &b2[o2]`: the absolute
difference and its square are computed in `T`, the running sum in `T2`. -/
def euclideanDist (wT w2 dims : Nat) (b1 : List Nat) (o1 : Nat) (b2 : List Nat) (o2 : Nat) :
    Except Fault Nat :=
  forUp (fun d dist => do
      let a ← readAt b1 (o1 + d)
      let b ← readAt b2 (o2 + d)
      let diff := if a > b then a - b else b - a
      pure ((dist + (diff * diff) % 2 ^ wT) % 2 ^ w2))
    dims 0 0

/-- The call `euclideanDist(&mPoints[p], &mCentroids[c*mDimensions])` of `assignment`. -/
def centroidDist (wT w2 : Nat) (st : Kmeans) (p c : Nat) : Except Fault Nat :=
  euclideanDist wT w2 st.mDimensions st.mPoints p st.mCentroids (wrap32 (c * st.mDimensions))

/-- One round of the cluster scan of `assignment`; the state is `(minDist, clusterIdx)`. -/
def nearestStep (wT w2 : Nat) (st : Kmeans) (p c : Nat) (acc : Nat × Nat) :
    Except Fault (Nat × Nat) := do
  let dist ← centroidDist wT w2 st p c
  if c = 0 ∨ dist ≤ acc.1 then pure (dist, c) else pure acc

/-- The cluster scan of `assignment` for the point at offset `p`: starts from
`minDist = 0`, `clusterIdx = 0` and returns the final `(minDist, clusterIdx)`. -/
def nearest (wT w2 : Nat) (st : Kmeans) (p : Nat) : Except Fault (Nat × Nat) :=
  forUp (nearestStep wT w2 st p) st.mClusters 0 (0, 0)

/-- The accumulation loop of `assignment`:
`mAccu[clusterIdx*mDimensions + d] += mPoints[p + d]`. -/
def accumulate (wT : Nat) (st : Kmeans) (p clusterIdx : Nat) : Except Fault (List Nat) :=
  forUp (fun d accu => do
      let i := wrap32 (clusterIdx * st.mDimensions + d)
      let a ← readAt accu i
      let x ← readAt st.mPoints (wrap32 (p + d))
      writeAt accu i ((a + x) % 2 ^ wT))
    st.mDimensions 0 st.mAccu

/-- The body of the point loop of `assignment` for the point at offset `p`. -/
def assignPoint (wT w2 : Nat) (p : Nat) (st : Kmeans) : Except Fault Kmeans := do
  let r ← nearest wT w2 st p
  let accu ← accumulate wT st p r.2
  let n ← readAt st.mAssigned r.2
  let assigned ← writeAt st.mAssigned r.2 (wrap32 (n + 1))
  pure { st with mAccu := accu, mAssigned := assigned }

/-- `Kmeans::assignment()`. -/
def assignment (wT w2 fuel : Nat) (st : Kmeans) : Except Fault Kmeans :=
  strideLoop (wrap32 (st.mSize * st.mDimensions)) st.mDimensions (assignPoint wT w2) fuel 0 st

/-- One round of the inner loop of `update` for cluster `c` and dimension `d`. -/
def updateEntry (st : Kmeans) (c d : Nat) (cen : List Nat) : Except Fault (List Nat) := do
  let n ← readAt st.mAssigned c
  if n ≠ 0 then
    let i := wrap32 (c * st.mDimensions + d)
    let a ← readAt st.mAccu i
    let n' ← readAt st.mAssigned c
    writeAt cen i (a / n')
  else pure cen

/-- `Kmeans::update()`. The quotient of a `T` value by a non-zero count is at most that
value, so the store into `T` does not reduce it. -/
def update (st : Kmeans) : Except Fault Kmeans := do
  let cen ← forUp (fun c cen => forUp (updateEntry st c) st.mDimensions 0 cen)
    st.mClusters 0 st.mCentroids
  pure { st with mCentroids := cen }

/-- The array `indx_array` of `initCentroids`. -/
def indx_array : List Nat := [0, 70, 149, 35, 105, 17, 50, 85]

/-- One round of the cluster loop of `initCentroids`. -/
def initCluster (st : Kmeans) (c : Nat) (cen : List Nat) : Except Fault (List Nat) := do
  let idx ← readAt indx_array c
  forUp (fun d cen => do
      let v ← readAt st.mPoints (wrap32 (idx * st.mDimensions + d))
      writeAt cen (wrap32 (c * st.mDimensions + d)) v)
    st.mDimensions 0 cen

/-- `Kmeans::initCentroids()`. -/
def initCentroids (st : Kmeans) : Except Fault Kmeans := do
  let cen ← forUp (initCluster st) st.mClusters 0 st.mCentroids
  pure { st with mCentroids := cen }

/-- `memset(buf, 0, n * sizeof(elem))`: the first `n` elements become zero. -/
def memsetZero (n : Nat) (xs : List Nat) : Except Fault (List Nat) :=
  if n ≤ xs.length then .ok (List.replicate n 0 ++ xs.drop n) else .error .outOfBounds

/-- The two `memset` calls at the head of an iteration of `run`. -/
def reset (st : Kmeans) : Except Fault Kmeans := do
  let accu ← memsetZero (wrap32 (st.mClusters * st.mDimensions)) st.mAccu
  let assigned ← memsetZero st.mClusters st.mAssigned
  pure { st with mAccu := accu, mAssigned := assigned }

/-- The body of the iteration loop of `run`. -/
def iteration (wT w2 fuel : Nat) (st : Kmeans) : Except Fault Kmeans := do
  let s1 ← reset st
  let s2 ← assignment wT w2 fuel s1
  update s2

/-- The iteration loop of `run`: `for (it = 0; it < iterations; ++it)`. -/
def runLoop (wT w2 fuel : Nat) : Nat → Kmeans → Except Fault Kmeans
  | 0, st => .ok st
  | n + 1, st => iteration wT w2 fuel st >>= runLoop wT w2 fuel n

/-- `Kmeans::run(iterations)`. -/
def run (wT w2 fuel : Nat) (iterations : Nat) (st : Kmeans) : Except Fault Kmeans :=
  initCentroids st >>= runLoop wT w2 fuel iterations

/-- One round of the centroid loop of `getSSE`; `c` is the offset of the centroid. The
distance is stored in a variable of type `T` (`T dist = euclideanDist(...)`). -/
def sseStep (wT w2 : Nat) (st : Kmeans) (p c : Nat) (minDist : Nat) : Except Fault Nat := do
  let d2 ← euclideanDist wT w2 st.mDimensions st.mPoints p st.mCentroids c
  let dist := d2 % 2 ^ wT
  if c = 0 ∨ dist ≤ minDist then pure (dist % 2 ^ w2) else pure minDist

/-- The body of the point loop of `getSSE` for the point at offset `p`. -/
def ssePoint (wT w2 fuel : Nat) (st : Kmeans) (p : Nat) (sse : Nat) : Except Fault Nat := do
  let minDist ← strideLoop (wrap32 (st.mClusters * st.mDimensions)) st.mDimensions
    (sseStep wT w2 st p) fuel 0 0
  pure ((sse + minDist) % 2 ^ w2)

/-- `Kmeans::getSSE()`. -/
def getSSE (wT w2 fuel : Nat) (st : Kmeans) : Except Fault Nat :=
  strideLoop (wrap32 (st.mSize * st.mDimensions)) st.mDimensions (ssePoint wT w2 fuel st) fuel 0 0

/-- `Kmeans::Kmeans(points, size, dimensions, k)`. The constructor has no failure path.
The element count `k*mDimensions` of the two `new T[...]` buffers is a `uint32_t` product;
the source does not initialise the three buffers, and `jc`, `ja`, `jn` supply their
indeterminate contents. -/
def construct (points : List Nat) (size dimensions k : Nat) (jc ja jn : Nat → Nat) : Kmeans :=
  { mPoints := points
    mSize := size
    mClusters := k
    mDimensions := dimensions
    mCentroids := (List.range (wrap32 (k * dimensions))).map jc
    mAccu := (List.range (wrap32 (k * dimensions))).map ja
    mAssigned := (List.range k).map jn }

/-- The cluster index that the cluster scan of `assignment` returns for point `j`
(`0` when the scan faults). -/
def clusterOf (wT w2 : Nat) (st : Kmeans) (j : Nat) : Nat :=
  match nearest wT w2 st (j * st.mDimensions) with
  | .ok r => r.2
  | .error _ => 0

/-- The points among the first `n` whose scan returns cluster `c`, in point order. -/
def assignedTo (wT w2 : Nat) (st : Kmeans) (c n : Nat) : List Nat :=
  (List.range n).filter (fun j => decide (clusterOf wT w2 st j = c))

/-- Coordinate `d` of point `j` in a point buffer of `dims`-dimensional points. -/
def coord (points : List Nat) (dims j d : Nat) : Nat := points.getD (j * dims + d) 0

/-- The exact sum of coordinate `d` over the points `js`. -/
def coordSum (points : List Nat) (dims : Nat) (js : List Nat) (d : Nat) : Nat :=
  (js.map (fun j => coord points dims j d)).sum

/-- Every centroid coordinate lies in every interval that contains that coordinate of
all the points, that is, between the minimum and the maximum of the coordinate over the
point set. -/
def InBox (st : Kmeans) : Prop :=
  ∀ c d lo hi, c < st.mClusters → d < st.mDimensions →
    (∀ j, j < st.mSize → lo ≤ coord st.mPoints st.mDimensions j d ∧
      coord st.mPoints st.mDimensions j d ≤ hi) →
    lo ≤ st.mCentroids.getD (c * st.mDimensions + d) 0 ∧
      st.mCentroids.getD (c * st.mDimensions + d) 0 ≤ hi

/-- The shape of an engine state: the point buffer holds `mSize` points, the engine's
buffers are those the constructor allocates (`k*mDimensions` and `k` elements) and the
32-bit product `k*mDimensions` did not wrap, so that they hold one slot per cluster and
dimension. -/
structure Valid (st : Kmeans) : Prop where
  points_len : st.mPoints.length = st.mSize * st.mDimensions
  centroids_len : st.mCentroids.length = st.mClusters * st.mDimensions
  accu_len : st.mAccu.length = st.mClusters * st.mDimensions
  assigned_len : st.mAssigned.length = st.mClusters
  no_wrap : st.mClusters * st.mDimensions < 4294967296

instance (st : Kmeans) : Decidable (Valid st) :=
  decidable_of_iff
    (st.mPoints.length = st.mSize * st.mDimensions ∧
      st.mCentroids.length = st.mClusters * st.mDimensions ∧
      st.mAccu.length = st.mClusters * st.mDimensions ∧
      st.mAssigned.length = st.mClusters ∧
      st.mClusters * st.mDimensions < 4294967296)
    ⟨fun ⟨a, b, c, d, e⟩ => ⟨a, b, c, d, e⟩, fun ⟨a, b, c, d, e⟩ => ⟨a, b, c, d, e⟩⟩

/-- The state `t` differs from `s` at most in the contents of the accumulator and count
buffers. -/
def SameButSums (s t : Kmeans) : Prop :=
  t.mPoints = s.mPoints ∧ t.mCentroids = s.mCentroids ∧ t.mSize = s.mSize ∧
  t.mClusters = s.mClusters ∧ t.mDimensions = s.mDimensions ∧
  t.mAccu.length = s.mAccu.length ∧ t.mAssigned.length = s.mAssigned.length

/-- The state `t` differs from `s` at most in the contents of the centroid buffer. -/
def SameButCentroids (s t : Kmeans) : Prop :=
  t.mPoints = s.mPoints ∧ t.mAccu = s.mAccu ∧ t.mAssigned = s.mAssigned ∧ t.mSize = s.mSize ∧
  t.mClusters = s.mClusters ∧ t.mDimensions = s.mDimensions ∧
  t.mCentroids.length = s.mCentroids.length

/-- The state `t` has the point buffer and the three sizes of `s`. -/
def SameInput (s t : Kmeans) : Prop :=
  t.mPoints = s.mPoints ∧ t.mSize = s.mSize ∧ t.mClusters = s.mClusters ∧
  t.mDimensions = s.mDimensions

/-- The states `s` and `t` agree on everything `getSSE` and the cluster scan read: the
point buffer, the centroid buffer and the three sizes. -/
def SameButSumContents (s t : Kmeans) : Prop :=
  t.mPoints = s.mPoints ∧ t.mCentroids = s.mCentroids ∧ t.mSize = s.mSize ∧
  t.mClusters = s.mClusters ∧ t.mDimensions = s.mDimensions

/-- An engine of two one-dimensional points and two clusters whose first point, `5`, is
at squared distance `1` from both centroids `4` and `6`. -/
def tieState : Kmeans :=
  { mPoints := [5, 4], mCentroids := [4, 6], mAccu := [0, 0], mAssigned := [0, 0],
    mSize := 2, mClusters := 2, mDimensions := 1 }

/-- An engine after an assignment step in which cluster 0 received two points (sums `7`
and `9`) and cluster 1 received none. -/
def halfEmptyState : Kmeans :=
  { mPoints := [3, 4, 4, 5], mCentroids := [1, 1, 8, 8], mAccu := [7, 9, 0, 0],
    mAssigned := [2, 0], mSize := 2, mClusters := 2, mDimensions := 2 }

/-- An engine of 150 one-dimensional points `0, 1, ..., 149` and eight clusters. -/
def rampState : Kmeans :=
  { mPoints := List.range 150, mCentroids := List.replicate 8 0, mAccu := List.replicate 8 0,
    mAssigned := List.replicate 8 0, mSize := 150, mClusters := 8, mDimensions := 1 }

/-- An engine of 150 points of `2 ^ 26` coordinates each and two clusters: the points
`0 .. 69` are all zeros, the points `70 .. 149` are all ones. -/
def wideState : Kmeans :=
  { mPoints := List.replicate 4697620480 0 ++ List.replicate 5368709120 1,
    mCentroids := List.replicate 134217728 0, mAccu := List.replicate 134217728 0,
    mAssigned := [0, 0], mSize := 150, mClusters := 2, mDimensions := 67108864 }

/-- An engine of two two-dimensional points and one cluster, for `T = uint32_t` and
`T2 = uint64_t`: the points are `(65535, 65535)` and `(0, 0)`. -/
def farState : Kmeans :=
  { mPoints := [65535, 65535, 0, 0], mCentroids := [0, 0], mAccu := [0, 0],
    mAssigned := [0], mSize := 2, mClusters := 1, mDimensions := 2 }

/-- An engine of three one-dimensional points and three clusters: fewer points than the
second and third selected initialisation indices, `70` and `149`. -/
def shortState : Kmeans :=
  { mPoints := [1, 2, 3], mCentroids := [0, 0, 0], mAccu := [0, 0, 0], mAssigned := [0, 0, 0],
    mSize := 3, mClusters := 3, mDimensions := 1 }

/-- The engine `farState` with other contents in its three own buffers, as an earlier
run could have left them. -/
def usedFarState : Kmeans :=
  { mPoints := [65535, 65535, 0, 0], mCentroids := [8, 9], mAccu := [3, 4],
    mAssigned := [7], mSize := 2, mClusters := 1, mDimensions := 2 }

/-- An engine for `T = uint32_t`, `T2 = uint64_t`: two one-dimensional points of value
`2^31` and one cluster. -/
def overflowState : Kmeans :=
  { mPoints := [2147483648, 2147483648], mCentroids := [2147483648], mAccu := [0],
    mAssigned := [0], mSize := 2, mClusters := 1, mDimensions := 1 }

/-- A buffer that is zero everywhere except for the value `v` at index `a`. -/
def spikeList (a b v : Nat) : List Nat := List.replicate a 0 ++ v :: List.replicate b 0

/-- An engine of 150 points of `61356676` coordinates each and two clusters, for
`T = uint32_t`: every coordinate of every point is zero, except coordinate `24` of point
0, which is `5`. -/
def skewState : Kmeans :=
  { mPoints := spikeList 24 9203501375 5,
    mCentroids := List.replicate 122713352 0, mAccu := List.replicate 122713352 0,
    mAssigned := [0, 0], mSize := 150, mClusters := 2, mDimensions := 61356676 }

/-- An engine of 150 one-dimensional points, all of value `4`, and eight clusters. -/
def flatState : Kmeans :=
  { mPoints := List.replicate 150 4, mCentroids := List.replicate 8 0,
    mAccu := List.replicate 8 0, mAssigned := List.replicate 8 0,
    mSize := 150, mClusters := 8, mDimensions := 1 }

/-- First coordinate of point `i` of `driftState`: the eight points selected by
`indx_array` are at `1, 100, 200, ..., 700`, point 1 is at `0`, every other point at `1`. -/
def driftX (i : Nat) : Nat :=
  if i = 1 then 0 else if i = 70 then 100 else if i = 149 then 200 else if i = 35 then 300
  else if i = 105 then 400 else if i = 17 then 500 else if i = 50 then 600
  else if i = 85 then 700 else 1

/-- An engine of 150 two-dimensional points `(driftX i, 0)` and eight clusters. -/
def driftState : Kmeans :=
  { mPoints := (List.range 150).flatMap (fun i => [driftX i, 0]),
    mCentroids := List.replicate 16 0, mAccu := List.replicate 16 0,
    mAssigned := List.replicate 8 0, mSize := 150, mClusters := 8, mDimensions := 2 }

/-- The engine `driftState` after `initCentroids`. -/
def driftInit : Kmeans :=
  { driftState with
    mCentroids := [1, 0, 100, 0, 200, 0, 300, 0, 400, 0, 500, 0, 600, 0, 700, 0] }

/-- The engine `driftState` after one iteration: cluster 0 holds 143 points whose first
coordinates sum to `142`, and its centroid is the truncated mean `(0, 0)`. -/
def driftFixed : Kmeans :=
  { driftState with
    mCentroids := [0, 0, 100, 0, 200, 0, 300, 0, 400, 0, 500, 0, 600, 0, 700, 0],
    mAccu := [142, 0, 100, 0, 200, 0, 300, 0, 400, 0, 500, 0, 600, 0, 700, 0],
    mAssigned := [143, 1, 1, 1, 1, 1, 1, 1] }

/-! ## Loop rules -/

@[simp] theorem ok_bind {α β : Type} (a : α) (f : α → Except Fault β) :
    (Except.ok a >>= f) = f a := rfl

@[simp] theorem error_bind {α β : Type} (e : Fault) (f : α → Except Fault β) :
    ((Except.error e : Except Fault α) >>= f) = Except.error e := rfl

@[simp] theorem pure_eq_ok {α : Type} (a : α) : (pure a : Except Fault α) = Except.ok a := rfl

theorem wrap32_le (n : Nat) : wrap32 n ≤ n := Nat.mod_le _ _

theorem wrap32_of_lt {n : Nat} (h : n < 4294967296) : wrap32 n = n := Nat.mod_eq_of_lt h

theorem readAt_of_lt {xs : List Nat} {i : Nat} (h : i < xs.length) :
    readAt xs i = .ok (xs.getD i 0) := by
  simp [readAt, List.getD, List.getElem?_eq_getElem h]

theorem writeAt_of_lt {xs : List Nat} {i : Nat} (v : Nat) (h : i < xs.length) :
    writeAt xs i v = .ok (xs.set i v) := by
  simp [writeAt, h]

/-- Total-correctness rule for the counting loop: an invariant that every round
re-establishes holds at the end, and the loop does produce a state. -/
theorem forUp_inv {σ : Type} (body : Nat → σ → Except Fault σ) (Inv : Nat → σ → Prop) :
    ∀ (n i : Nat) (s : σ), Inv i s →
      (∀ j t, i ≤ j → j < i + n → Inv j t → ∃ t', body j t = .ok t' ∧ Inv (j + 1) t') →
      ∃ s', forUp body n i s = .ok s' ∧ Inv (i + n) s' := by
  intro n
  induction n with
  | zero => intro i s h0 _; exact ⟨s, rfl, by simpa using h0⟩
  | succ n ih =>
    intro i s h0 hstep
    obtain ⟨t, ht, hinv⟩ := hstep i s (Nat.le_refl i) (by omega) h0
    obtain ⟨s', hs', hfin⟩ := ih (i + 1) t hinv
      (fun j u h1 h2 hu => hstep j u (by omega) (by omega) hu)
    refine ⟨s', ?_, ?_⟩
    · simp [forUp, ht, hs']
    · have e : i + (n + 1) = i + 1 + n := by omega
      rw [e]; exact hfin

/-- When neither the bound `n * step` nor the counter wraps, the stride loop with more
than `n` units of fuel is the counting loop over the `n` offsets `0, step, 2*step, ...`. -/
theorem strideLoop_eq_forUp {σ : Type} (step : Nat) (body : Nat → σ → Except Fault σ)
    (n : Nat) (hs : 0 < step) (hlt : n * step < 4294967296) :
    ∀ (k i fuel : Nat) (s : σ), i + k = n → k < fuel →
      strideLoop (n * step) step body fuel (i * step) s
        = forUp (fun j => body (j * step)) k i s := by
  intro k
  induction k with
  | zero =>
    intro i fuel s hik hf
    obtain ⟨f, rfl⟩ : ∃ f, fuel = f + 1 := ⟨fuel - 1, by omega⟩
    have : i = n := by omega
    subst this
    simp [strideLoop, forUp]
  | succ k ih =>
    intro i fuel s hik hf
    obtain ⟨f, rfl⟩ : ∃ f, fuel = f + 1 := ⟨fuel - 1, by omega⟩
    have hin : i < n := by omega
    have h1 : i * step < n * step := Nat.mul_lt_mul_of_pos_right hin hs
    have h2 : (i + 1) * step ≤ n * step := Nat.mul_le_mul_right step hin
    have h3 : wrap32 (i * step + step) = (i + 1) * step := by
      rw [Nat.succ_mul]; exact wrap32_of_lt (by rw [Nat.succ_mul] at h2; omega)
    simp only [strideLoop, forUp, h1, if_true, h3]
    cases body (i * step) s with
    | error e => rfl
    | ok t => simpa using ih (i + 1) f t (by omega) (by omega)

/-- Partial-correctness rule for the counting loop: a property of the state that every
successful round keeps holds of every state the loop returns. -/
theorem forUp_keeps {σ : Type} (body : Nat → σ → Except Fault σ) (P : σ → Prop)
    (hstep : ∀ j t t', P t → body j t = .ok t' → P t') :
    ∀ (n i : Nat) (s s' : σ), P s → forUp body n i s = .ok s' → P s' := by
  intro n
  induction n with
  | zero => intro i s s' h0 h; cases h; exact h0
  | succ n ih =>
    intro i s s' h0 h
    simp only [forUp] at h
    cases hb : body i s with
    | error e => rw [hb] at h; cases h
    | ok t => rw [hb] at h; exact ih (i + 1) t s' (hstep i s t h0 hb) h

/-- Partial-correctness rule for the stride loop, for any fuel and any bound. -/
theorem strideLoop_keeps {σ : Type} (bound step : Nat) (body : Nat → σ → Except Fault σ)
    (P : σ → Prop) (hstep : ∀ p t t', P t → body p t = .ok t' → P t') :
    ∀ (fuel p : Nat) (s s' : σ), P s → strideLoop bound step body fuel p s = .ok s' → P s' := by
  intro fuel
  induction fuel with
  | zero => intro p s s' _ h; cases h
  | succ f ih =>
    intro p s s' h0 h
    simp only [strideLoop] at h
    split at h
    · cases hb : body p s with
      | error e => rw [hb] at h; cases h
      | ok t => rw [hb] at h; exact ih _ t s' (hstep p s t h0 hb) h
    · cases h; exact h0

/-! ## The assignment step -/

theorem euclideanDist_ok (wT w2 dims : Nat) (b1 : List Nat) (o1 : Nat) (b2 : List Nat)
    (o2 : Nat) (h1 : o1 + dims ≤ b1.length) (h2 : o2 + dims ≤ b2.length) :
    ∃ v, euclideanDist wT w2 dims b1 o1 b2 o2 = .ok v := by
  obtain ⟨v, hv, _⟩ := forUp_inv (fun d dist => do
      let a ← readAt b1 (o1 + d)
      let b ← readAt b2 (o2 + d)
      let diff := if a > b then a - b else b - a
      pure ((dist + (diff * diff) % 2 ^ wT) % 2 ^ w2)) (fun _ _ => True) dims 0 0 trivial
    (by
      intro j t _ hj _
      have e1 : o1 + j < b1.length := by omega
      have e2 : o2 + j < b2.length := by omega
      simp [readAt_of_lt e1, readAt_of_lt e2])
  exact ⟨v, hv⟩

theorem centroidDist_ok (wT w2 : Nat) (st : Kmeans) (p c : Nat)
    (hp : p + st.mDimensions ≤ st.mPoints.length)
    (hc : st.mCentroids.length = st.mClusters * st.mDimensions) (hlt : c < st.mClusters) :
    ∃ v, centroidDist wT w2 st p c = .ok v := by
  apply euclideanDist_ok _ _ _ _ _ _ _ hp
  have h1 := wrap32_le (c * st.mDimensions)
  have h2 : (c + 1) * st.mDimensions ≤ st.mClusters * st.mDimensions :=
    Nat.mul_le_mul_right _ hlt
  rw [Nat.succ_mul] at h2
  omega

/-- What the cluster scan returns: a cluster at minimal computed distance, and the last
such cluster in scan order. -/
theorem nearest_spec (wT w2 : Nat) (st : Kmeans) (p : Nat)
    (hp : p + st.mDimensions ≤ st.mPoints.length)
    (hc : st.mCentroids.length = st.mClusters * st.mDimensions) :
    ∃ r : Nat × Nat, nearest wT w2 st p = .ok r ∧
      (0 < st.mClusters → r.2 < st.mClusters ∧ centroidDist wT w2 st p r.2 = .ok r.1) ∧
      ∀ c, c < st.mClusters →
        ∃ dc, centroidDist wT w2 st p c = .ok dc ∧ r.1 ≤ dc ∧ (dc = r.1 → c ≤ r.2) := by
  have key := forUp_inv (nearestStep wT w2 st p)
    (fun n r => (0 < n → r.2 < n ∧ centroidDist wT w2 st p r.2 = .ok r.1) ∧
      ∀ c, c < n → ∃ dc, centroidDist wT w2 st p c = .ok dc ∧ r.1 ≤ dc ∧ (dc = r.1 → c ≤ r.2))
    st.mClusters 0 (0, 0) ⟨fun h => absurd h (Nat.lt_irrefl 0), fun c h => absurd h (Nat.not_lt_zero c)⟩
    (by
      intro j r _ hj ⟨hr1, hr2⟩
      obtain ⟨dj, hdj⟩ := centroidDist_ok wT w2 st p j hp hc (by omega)
      by_cases hcond : j = 0 ∨ dj ≤ r.1
      · refine ⟨(dj, j), by simp [nearestStep, hdj, hcond], fun _ => ⟨Nat.lt_succ_self j, hdj⟩, ?_⟩
        intro c hcj
        by_cases hce : c = j
        · subst hce; exact ⟨dj, hdj, Nat.le_refl _, fun _ => Nat.le_refl _⟩
        · have hlt : c < j := by omega
          obtain ⟨dc, h1, h2, _⟩ := hr2 c hlt
          have hle : dj ≤ r.1 := by
            rcases hcond with h0 | h0
            · omega
            · exact h0
          exact ⟨dc, h1, Nat.le_trans hle h2, fun _ => Nat.le_of_lt hlt⟩
      · have hj0 : 0 < j := by
          rcases Nat.eq_zero_or_pos j with h0 | h0
          · exact absurd (Or.inl h0) hcond
          · exact h0
        have hgt : r.1 < dj := by
          rcases Nat.lt_or_ge r.1 dj with h0 | h0
          · exact h0
          · exact absurd (Or.inr h0) hcond
        obtain ⟨hr3, hr4⟩ := hr1 hj0
        refine ⟨r, by simp [nearestStep, hdj, hcond], fun _ => ⟨by omega, hr4⟩, ?_⟩
        intro c hcj
        by_cases hce : c = j
        · subst hce; exact ⟨dj, hdj, Nat.le_of_lt hgt, fun h => by omega⟩
        · exact hr2 c (by omega))
  obtain ⟨r, h1, h2⟩ := key
  simp only [Nat.zero_add] at h2
  exact ⟨r, h1, h2⟩

theorem length_of_writeAt {xs ys : List Nat} {i v : Nat} (h : writeAt xs i v = .ok ys) :
    ys.length = xs.length := by
  unfold writeAt at h
  split at h
  · cases h; simp
  · cases h

theorem accumulate_ok (wT : Nat) (st : Kmeans) (p idx : Nat)
    (hp : p + st.mDimensions ≤ st.mPoints.length)
    (ha : st.mAccu.length = st.mClusters * st.mDimensions) (hidx : idx < st.mClusters) :
    ∃ accu, accumulate wT st p idx = .ok accu ∧ accu.length = st.mAccu.length := by
  have key := forUp_inv (fun d accu => do
      let i := wrap32 (idx * st.mDimensions + d)
      let a ← readAt accu i
      let x ← readAt st.mPoints (wrap32 (p + d))
      writeAt accu i ((a + x) % 2 ^ wT)) (fun _ accu => accu.length = st.mAccu.length)
    st.mDimensions 0 st.mAccu rfl
    (by
      intro j t _ hj ht
      have h2 : (idx + 1) * st.mDimensions ≤ st.mClusters * st.mDimensions :=
        Nat.mul_le_mul_right _ hidx
      rw [Nat.succ_mul] at h2
      have e1 : wrap32 (idx * st.mDimensions + j) < t.length := by
        have := wrap32_le (idx * st.mDimensions + j); omega
      have e2 : wrap32 (p + j) < st.mPoints.length := by
        have := wrap32_le (p + j); omega
      simp only [readAt_of_lt e1, readAt_of_lt e2, ok_bind, writeAt_of_lt _ e1]
      exact ⟨_, rfl, by simpa using ht⟩)
  obtain ⟨accu, h1, h2⟩ := key
  exact ⟨accu, h1, h2⟩

/-- What the body of the point loop does with the cluster that the scan returns. -/
theorem assignPoint_spec (wT w2 : Nat) (st : Kmeans) (p : Nat) (r : Nat × Nat)
    (hp : p + st.mDimensions ≤ st.mPoints.length)
    (ha : st.mAccu.length = st.mClusters * st.mDimensions)
    (hn : st.mAssigned.length = st.mClusters)
    (hr : nearest wT w2 st p = .ok r) (hidx : r.2 < st.mClusters) :
    ∃ accu, accumulate wT st p r.2 = .ok accu ∧ accu.length = st.mAccu.length ∧
      assignPoint wT w2 p st = .ok { st with
        mAccu := accu,
        mAssigned := st.mAssigned.set r.2 (wrap32 (st.mAssigned.getD r.2 0 + 1)) } := by
  obtain ⟨accu, h1, h2⟩ := accumulate_ok wT st p r.2 hp ha hidx
  have e : r.2 < st.mAssigned.length := by omega
  refine ⟨accu, h1, h2, ?_⟩
  simp [assignPoint, hr, h1, readAt_of_lt e, writeAt_of_lt _ e]

/-! ## Frame and shape of the steps -/

theorem SameButSums.keepsValid {s t : Kmeans} (h : SameButSums s t) (hv : Valid s) : Valid t := by
  obtain ⟨h1, h2, h3, h4, h5, h6, h7⟩ := h
  exact ⟨by rw [h1, h3, h5]; exact hv.points_len, by rw [h2, h4, h5]; exact hv.centroids_len,
    by rw [h6, h4, h5]; exact hv.accu_len, by rw [h7, h4]; exact hv.assigned_len,
    by rw [h4, h5]; exact hv.no_wrap⟩

theorem SameButCentroids.preservesValid {s t : Kmeans} (h : SameButCentroids s t) (hv : Valid s) :
    Valid t := by
  obtain ⟨h1, h2, h3, h4, h5, h6, h7⟩ := h
  exact ⟨by rw [h1, h4, h6]; exact hv.points_len, by rw [h7, h5, h6]; exact hv.centroids_len,
    by rw [h2, h5, h6]; exact hv.accu_len, by rw [h3, h5]; exact hv.assigned_len,
    by rw [h5, h6]; exact hv.no_wrap⟩

theorem SameButSums.unchanged (s : Kmeans) : SameButSums s s := ⟨rfl, rfl, rfl, rfl, rfl, rfl, rfl⟩

theorem SameButSums.andThen {s t u : Kmeans} (h1 : SameButSums s t) (h2 : SameButSums t u) :
    SameButSums s u := by
  obtain ⟨a1, a2, a3, a4, a5, a6, a7⟩ := h1
  obtain ⟨b1, b2, b3, b4, b5, b6, b7⟩ := h2
  exact ⟨b1.trans a1, b2.trans a2, b3.trans a3, b4.trans a4, b5.trans a5, b6.trans a6,
    b7.trans a7⟩

theorem accumulate_length {wT : Nat} {st : Kmeans} {p idx : Nat} {accu : List Nat}
    (h : accumulate wT st p idx = .ok accu) : accu.length = st.mAccu.length := by
  refine forUp_keeps _ (fun a => a.length = st.mAccu.length) ?_ _ _ _ _ rfl h
  intro j t t' ht hb
  cases h1 : readAt t (wrap32 (idx * st.mDimensions + j)) with
  | error e => simp [h1] at hb
  | ok a =>
    cases h2 : readAt st.mPoints (wrap32 (p + j)) with
    | error e => simp [h1, h2] at hb
    | ok x =>
      simp only [h1, h2, ok_bind] at hb
      rw [length_of_writeAt hb]; exact ht

theorem assignPoint_frame {wT w2 p : Nat} {s t : Kmeans}
    (h : assignPoint wT w2 p s = .ok t) : SameButSums s t := by
  unfold assignPoint at h
  cases h1 : nearest wT w2 s p with
  | error e => simp [h1] at h
  | ok r =>
    cases h2 : accumulate wT s p r.2 with
    | error e => simp [h1, h2] at h
    | ok accu =>
      cases h3 : readAt s.mAssigned r.2 with
      | error e => simp [h1, h2, h3] at h
      | ok n =>
        cases h4 : writeAt s.mAssigned r.2 (wrap32 (n + 1)) with
        | error e => simp [h1, h2, h3, h4] at h
        | ok assigned =>
          simp only [h1, h2, h3, h4, ok_bind, pure_eq_ok, Except.ok.injEq] at h
          subst h
          exact ⟨rfl, rfl, rfl, rfl, rfl, accumulate_length h2, length_of_writeAt h4⟩

theorem assignment_frame {wT w2 fuel : Nat} {s t : Kmeans}
    (h : assignment wT w2 fuel s = .ok t) : SameButSums s t :=
  strideLoop_keeps _ _ _ (SameButSums s)
    (fun _ _ _ ht hb => ht.andThen (assignPoint_frame hb)) fuel 0 s t (SameButSums.unchanged s) h

theorem memsetZero_length {n : Nat} {xs ys : List Nat} (h : memsetZero n xs = .ok ys) :
    ys.length = xs.length := by
  unfold memsetZero at h
  split at h
  · cases h; simp; omega
  · cases h

theorem reset_frame {s t : Kmeans} (h : reset s = .ok t) : SameButSums s t := by
  unfold reset at h
  cases h1 : memsetZero (wrap32 (s.mClusters * s.mDimensions)) s.mAccu with
  | error e => simp [h1] at h
  | ok accu =>
    cases h2 : memsetZero s.mClusters s.mAssigned with
    | error e => simp [h1, h2] at h
    | ok assigned =>
      simp only [h1, h2, ok_bind, pure_eq_ok, Except.ok.injEq] at h
      subst h
      exact ⟨rfl, rfl, rfl, rfl, rfl, memsetZero_length h1, memsetZero_length h2⟩

theorem updateEntry_length {st : Kmeans} {c d : Nat} {cen cen' : List Nat}
    (h : updateEntry st c d cen = .ok cen') : cen'.length = cen.length := by
  unfold updateEntry at h
  cases h1 : readAt st.mAssigned c with
  | error e => simp [h1] at h
  | ok n =>
    by_cases hn : n = 0
    · simp [h1, hn] at h; rw [h]
    · cases h2 : readAt st.mAccu (wrap32 (c * st.mDimensions + d)) with
      | error e => simp [h1, hn, h2] at h
      | ok a =>
        simp only [h1, hn, h2, ok_bind, ne_eq, not_false_eq_true, if_true] at h
        exact length_of_writeAt h

theorem update_frame {s t : Kmeans} (h : update s = .ok t) : SameButCentroids s t := by
  unfold update at h
  cases h1 : forUp (fun c cen => forUp (updateEntry s c) s.mDimensions 0 cen)
      s.mClusters 0 s.mCentroids with
  | error e => simp [h1] at h
  | ok cen =>
    simp only [h1, ok_bind, pure_eq_ok, Except.ok.injEq] at h
    subst h
    refine ⟨rfl, rfl, rfl, rfl, rfl, rfl, ?_⟩
    refine forUp_keeps _ (fun a => a.length = s.mCentroids.length) ?_ _ _ _ _ rfl h1
    intro c a a' ha hb
    exact forUp_keeps _ (fun b => b.length = s.mCentroids.length)
      (fun d b b' hb1 hb2 => (updateEntry_length hb2).trans hb1) _ _ _ _ ha hb

theorem initCluster_length {st : Kmeans} {c : Nat} {cen cen' : List Nat}
    (h : initCluster st c cen = .ok cen') : cen'.length = cen.length := by
  unfold initCluster at h
  cases h1 : readAt indx_array c with
  | error e => simp [h1] at h
  | ok idx =>
    simp only [h1, ok_bind] at h
    refine forUp_keeps _ (fun a => a.length = cen.length) ?_ _ _ _ _ rfl h
    intro d a a' ha hb
    cases h2 : readAt st.mPoints (wrap32 (idx * st.mDimensions + d)) with
    | error e => simp [h2] at hb
    | ok v =>
      simp only [h2, ok_bind] at hb
      rw [length_of_writeAt hb]; exact ha

theorem initCentroids_frame {s t : Kmeans} (h : initCentroids s = .ok t) :
    SameButCentroids s t := by
  unfold initCentroids at h
  cases h1 : forUp (initCluster s) s.mClusters 0 s.mCentroids with
  | error e => simp [h1] at h
  | ok cen =>
    simp only [h1, ok_bind, pure_eq_ok, Except.ok.injEq] at h
    subst h
    refine ⟨rfl, rfl, rfl, rfl, rfl, rfl, ?_⟩
    exact forUp_keeps _ (fun a => a.length = s.mCentroids.length)
      (fun c a a' ha hb => (initCluster_length hb).trans ha) _ _ _ _ rfl h1

theorem iteration_valid {wT w2 fuel : Nat} {s t : Kmeans} (hv : Valid s)
    (h : iteration wT w2 fuel s = .ok t) : Valid t := by
  unfold iteration at h
  cases h1 : reset s with
  | error e => simp [h1] at h
  | ok s1 =>
    cases h2 : assignment wT w2 fuel s1 with
    | error e => simp [h1, h2] at h
    | ok s2 =>
      simp only [h1, h2, ok_bind] at h
      exact (update_frame h).preservesValid ((assignment_frame h2).keepsValid ((reset_frame h1).keepsValid hv))

theorem runLoop_valid {wT w2 fuel : Nat} :
    ∀ (n : Nat) (s t : Kmeans), Valid s → runLoop wT w2 fuel n s = .ok t → Valid t := by
  intro n
  induction n with
  | zero => intro s t hv h; cases h; exact hv
  | succ n ih =>
    intro s t hv h
    simp only [runLoop] at h
    cases h1 : iteration wT w2 fuel s with
    | error e => rw [h1] at h; cases h
    | ok s1 => rw [h1] at h; exact ih s1 t (iteration_valid hv h1) h

theorem run_valid {wT w2 fuel n : Nat} {s t : Kmeans} (hv : Valid s)
    (h : run wT w2 fuel n s = .ok t) : Valid t := by
  unfold run at h
  cases h1 : initCentroids s with
  | error e => rw [h1] at h; cases h
  | ok s1 => rw [h1] at h; exact runLoop_valid n s1 t ((initCentroids_frame h1).preservesValid hv) h

/-! ## Counting the points -/

theorem getD_set (xs : List Nat) (i j v : Nat) (h : i < xs.length) :
    (xs.set i v).getD j 0 = if j = i then v else xs.getD j 0 := by
  simp only [List.getD_eq_getElem?_getD, List.getElem?_set]
  by_cases e : i = j
  · subst e; simp [h]
  · have e' : ¬ j = i := fun h => e h.symm
    simp [e, e']

theorem sum_set : ∀ (xs : List Nat) (i v : Nat), i < xs.length →
    (xs.set i v).sum + xs.getD i 0 = xs.sum + v := by
  intro xs
  induction xs with
  | nil => intro i v h; simp at h
  | cons x xs ih =>
    intro i v h
    cases i with
    | zero => simp; omega
    | succ i =>
      have := ih i v (by simpa using h)
      simp at this ⊢
      omega

theorem getD_le_sum (xs : List Nat) (i : Nat) : xs.getD i 0 ≤ xs.sum := by
  rcases Nat.lt_or_ge i xs.length with h | h
  · have := sum_set xs i 0 h
    omega
  · simp [List.getElem?_eq_none h]

theorem point_in_bounds {st : Kmeans} (hv : Valid st) {j : Nat} (hj : j < st.mSize) :
    j * st.mDimensions + st.mDimensions ≤ st.mPoints.length := by
  have := Nat.mul_le_mul_right st.mDimensions hj
  rw [Nat.succ_mul] at this
  rw [hv.points_len]; exact this

theorem reset_ok {st : Kmeans} (hv : Valid st) :
    reset st = .ok { st with
      mAccu := List.replicate (st.mClusters * st.mDimensions) 0,
      mAssigned := List.replicate st.mClusters 0 } := by
  have h1 : wrap32 (st.mClusters * st.mDimensions) = st.mClusters * st.mDimensions :=
    wrap32_of_lt hv.no_wrap
  have l1 : st.mClusters * st.mDimensions ≤ st.mAccu.length := Nat.le_of_eq hv.accu_len.symm
  have l2 : st.mClusters ≤ st.mAssigned.length := Nat.le_of_eq hv.assigned_len.symm
  have d1 : st.mAccu.drop (st.mClusters * st.mDimensions) = [] :=
    List.drop_eq_nil_of_le (Nat.le_of_eq hv.accu_len)
  have d2 : st.mAssigned.drop st.mClusters = [] :=
    List.drop_eq_nil_of_le (Nat.le_of_eq hv.assigned_len)
  simp only [reset, memsetZero, h1, if_pos l1, if_pos l2, d1, d2, List.append_nil, ok_bind,
    pure_eq_ok]

/-- The body of the point loop moves exactly one unit into the counts, as long as the
counts cannot wrap. -/
theorem assignPoint_counts (wT w2 : Nat) (st : Kmeans) (j : Nat) (hv : Valid st)
    (hj : j < st.mSize) (hk : 1 ≤ st.mClusters) (hs : st.mAssigned.sum + 1 < 4294967296) :
    ∃ t, assignPoint wT w2 (j * st.mDimensions) st = .ok t ∧
      t.mAssigned.sum = st.mAssigned.sum + 1 := by
  have hp := point_in_bounds hv hj
  obtain ⟨r, hr, hr1, _⟩ := nearest_spec wT w2 st (j * st.mDimensions) hp hv.centroids_len
  obtain ⟨hidx, _⟩ := hr1 (by omega)
  obtain ⟨accu, _, _, ha3⟩ :=
    assignPoint_spec wT w2 st (j * st.mDimensions) r hp hv.accu_len hv.assigned_len hr hidx
  refine ⟨_, ha3, ?_⟩
  have hl : r.2 < st.mAssigned.length := by rw [hv.assigned_len]; exact hidx
  have h1 := sum_set st.mAssigned r.2 (wrap32 (st.mAssigned.getD r.2 0 + 1)) hl
  have h2 := getD_le_sum st.mAssigned r.2
  have h3 : wrap32 (st.mAssigned.getD r.2 0 + 1) = st.mAssigned.getD r.2 0 + 1 :=
    wrap32_of_lt (by omega)
  rw [h3] at h1
  show (st.mAssigned.set r.2 (wrap32 (st.mAssigned.getD r.2 0 + 1))).sum = _
  rw [h3]; omega

/-- The assignment step on a valid state whose 32-bit loop bound does not wrap: it
returns, and the counts grow by `mSize` in total. -/
theorem assignment_counts (wT w2 fuel : Nat) (st : Kmeans) (hv : Valid st)
    (hd : 1 ≤ st.mDimensions) (hk : 1 ≤ st.mClusters)
    (hsz : st.mSize * st.mDimensions < 4294967296) (hf : st.mSize < fuel)
    (hs : st.mAssigned.sum + st.mSize < 4294967296) :
    ∃ t, assignment wT w2 fuel st = .ok t ∧ t.mAssigned.sum = st.mAssigned.sum + st.mSize := by
  unfold assignment
  rw [wrap32_of_lt hsz]
  have e := strideLoop_eq_forUp st.mDimensions (assignPoint wT w2) st.mSize hd hsz
    st.mSize 0 fuel st (by omega) hf
  rw [Nat.zero_mul] at e
  rw [e]
  have key := forUp_inv (fun j => assignPoint wT w2 (j * st.mDimensions))
    (fun j t => SameButSums st t ∧ t.mAssigned.sum = st.mAssigned.sum + j)
    st.mSize 0 st ⟨SameButSums.unchanged st, rfl⟩
    (by
      intro j t _ hj ⟨ht1, ht2⟩
      have hvt : Valid t := ht1.keepsValid hv
      obtain ⟨_, _, e3, e4, e5, _, _⟩ := ht1
      obtain ⟨t', h1, h2⟩ := assignPoint_counts wT w2 t j hvt (by omega) (by omega) (by omega)
      rw [e5] at h1
      exact ⟨t', h1, SameButSums.andThen ⟨‹_›, ‹_›, e3, e4, e5, ‹_›, ‹_›⟩ (by
        rw [← e5] at h1; exact assignPoint_frame h1), by omega⟩)
  obtain ⟨t, h1, _, h2⟩ := key
  exact ⟨t, h1, by simpa using h2⟩

/-! ## The update step -/

theorem block_in_bounds {st : Kmeans} {c : Nat} (hc : c < st.mClusters) :
    c * st.mDimensions + st.mDimensions ≤ st.mClusters * st.mDimensions := by
  have := Nat.mul_le_mul_right st.mDimensions hc
  rwa [Nat.succ_mul] at this

/-- The inner loop of `update` for one cluster: the slots of that cluster receive the
quotient when the count is non-zero, and nothing else changes. -/
theorem updateCluster_spec (st : Kmeans) (hv : Valid st) (c : Nat) (hc : c < st.mClusters)
    (cen0 : List Nat) (hlen : cen0.length = st.mClusters * st.mDimensions) :
    ∃ cen, forUp (updateEntry st c) st.mDimensions 0 cen0 = .ok cen ∧
      cen.length = cen0.length ∧
      ∀ i, cen.getD i 0 =
        if c * st.mDimensions ≤ i ∧ i < c * st.mDimensions + st.mDimensions ∧
            st.mAssigned.getD c 0 ≠ 0
        then st.mAccu.getD i 0 / st.mAssigned.getD c 0 else cen0.getD i 0 := by
  have hB := block_in_bounds hc
  have hw := hv.no_wrap
  have hcl : c < st.mAssigned.length := by rw [hv.assigned_len]; exact hc
  have key := forUp_inv (updateEntry st c)
    (fun m cen => cen.length = cen0.length ∧ ∀ i, cen.getD i 0 =
      if c * st.mDimensions ≤ i ∧ i < c * st.mDimensions + m ∧ st.mAssigned.getD c 0 ≠ 0
      then st.mAccu.getD i 0 / st.mAssigned.getD c 0 else cen0.getD i 0)
    st.mDimensions 0 cen0
    ⟨rfl, fun i => by
      have : ¬ (c * st.mDimensions ≤ i ∧ i < c * st.mDimensions + 0 ∧
          st.mAssigned.getD c 0 ≠ 0) := by omega
      rw [if_neg this]⟩
    (by
      intro m t _ hm ⟨ht1, ht2⟩
      have hk : wrap32 (c * st.mDimensions + m) = c * st.mDimensions + m :=
        wrap32_of_lt (by omega)
      have hkl : c * st.mDimensions + m < t.length := by omega
      have hka : c * st.mDimensions + m < st.mAccu.length := by rw [hv.accu_len]; omega
      by_cases hn : st.mAssigned.getD c 0 = 0
      · refine ⟨t, ?_, ht1, ?_⟩
        · simp only [updateEntry, readAt_of_lt hcl, ok_bind, hn, ne_eq, not_true_eq_false,
            if_false, pure_eq_ok]
        · intro i
          rw [ht2 i, if_neg (by omega), if_neg (by omega)]
      · refine ⟨t.set (c * st.mDimensions + m)
          (st.mAccu.getD (c * st.mDimensions + m) 0 / st.mAssigned.getD c 0), ?_, ?_, ?_⟩
        · simp only [updateEntry, readAt_of_lt hcl, ok_bind, hn, ne_eq, not_false_eq_true,
            if_true, hk, readAt_of_lt hka, writeAt_of_lt _ hkl]
        · rw [List.length_set]; exact ht1
        · intro i
          rw [getD_set _ _ _ _ hkl]
          by_cases hi : i = c * st.mDimensions + m
          · rw [if_pos hi, if_pos ⟨by omega, by omega, hn⟩, hi]
          · rw [if_neg hi, ht2 i]
            by_cases h3 : c * st.mDimensions ≤ i ∧ i < c * st.mDimensions + m ∧
                st.mAssigned.getD c 0 ≠ 0
            · rw [if_pos h3, if_pos ⟨h3.1, by omega, hn⟩]
            · rw [if_neg h3, if_neg (by
                intro h4
                exact h3 ⟨h4.1, by omega, hn⟩)])
  obtain ⟨cen, h1, h2, h3⟩ := key
  refine ⟨cen, h1, h2, ?_⟩
  intro i
  rw [h3 i, Nat.zero_add]

/-- `update` on a valid state returns, changes only the centroid buffer, and every slot
`(c, d)` holds the quotient `mAccu / mAssigned[c]` when the count of `c` is non-zero and
its previous value otherwise. -/
theorem update_spec (st : Kmeans) (hv : Valid st) :
    ∃ cen, update st = .ok { st with mCentroids := cen } ∧
      cen.length = st.mCentroids.length ∧
      ∀ c d, c < st.mClusters → d < st.mDimensions →
        cen.getD (c * st.mDimensions + d) 0 =
          if st.mAssigned.getD c 0 ≠ 0
          then st.mAccu.getD (c * st.mDimensions + d) 0 / st.mAssigned.getD c 0
          else st.mCentroids.getD (c * st.mDimensions + d) 0 := by
  have key := forUp_inv (fun c cen => forUp (updateEntry st c) st.mDimensions 0 cen)
    (fun n cen => cen.length = st.mCentroids.length ∧ ∀ c d, d < st.mDimensions →
      cen.getD (c * st.mDimensions + d) 0 =
        if c < n ∧ st.mAssigned.getD c 0 ≠ 0
        then st.mAccu.getD (c * st.mDimensions + d) 0 / st.mAssigned.getD c 0
        else st.mCentroids.getD (c * st.mDimensions + d) 0)
    st.mClusters 0 st.mCentroids
    ⟨rfl, fun c d _ => by rw [if_neg (by omega)]⟩
    (by
      intro n t _ hn ⟨ht1, ht2⟩
      obtain ⟨cen, h1, h2, h3⟩ := updateCluster_spec st hv n (by omega) t
        (by rw [ht1, hv.centroids_len])
      refine ⟨cen, h1, h2.trans ht1, ?_⟩
      intro c d hd
      rw [h3, ht2 c d hd]
      rcases Nat.lt_trichotomy c n with hlt | heq | hgt
      · have hb : c * st.mDimensions + st.mDimensions ≤ n * st.mDimensions := by
          have := Nat.mul_le_mul_right st.mDimensions hlt
          rwa [Nat.succ_mul] at this
        rw [if_neg (by omega)]
        by_cases h4 : st.mAssigned.getD c 0 ≠ 0
        · rw [if_pos ⟨hlt, h4⟩, if_pos ⟨by omega, h4⟩]
        · rw [if_neg (fun h => h4 h.2), if_neg (fun h => h4 h.2)]
      · subst heq
        by_cases h4 : st.mAssigned.getD c 0 ≠ 0
        · rw [if_pos ⟨by omega, by omega, h4⟩, if_pos ⟨by omega, h4⟩]
        · rw [if_neg (fun h => h4 h.2.2), if_neg (fun h => h4 h.2), if_neg (fun h => h4 h.2)]
      · have hb : n * st.mDimensions + st.mDimensions ≤ c * st.mDimensions := by
          have := Nat.mul_le_mul_right st.mDimensions hgt
          rwa [Nat.succ_mul] at this
        rw [if_neg (by omega), if_neg (by omega), if_neg (by omega)])
  obtain ⟨cen, h1, h2, h3⟩ := key
  refine ⟨cen, by simp only [update, h1, ok_bind, pure_eq_ok], h2, ?_⟩
  intro c d hc hd
  rw [h3 c d hd, Nat.zero_add]
  by_cases h4 : st.mAssigned.getD c 0 ≠ 0
  · rw [if_pos ⟨hc, h4⟩, if_pos h4]
  · rw [if_neg (fun h => h4 h.2), if_neg h4]

/-! ## Initialisation -/

/-- The cluster loop body of `initCentroids` for cluster `c`: the slots of that cluster
receive the values read from the point buffer at the 32-bit offsets
`idx*mDimensions + d`, and nothing else changes. -/
theorem initCluster_spec (st : Kmeans) (hv : Valid st) (c : Nat) (hc : c < st.mClusters)
    (h8 : c < 8) (hidx : indx_array.getD c 0 < st.mSize)
    (cen0 : List Nat) (hlen : cen0.length = st.mClusters * st.mDimensions) :
    ∃ cen, initCluster st c cen0 = .ok cen ∧ cen.length = cen0.length ∧
      (∀ d, d < st.mDimensions → cen.getD (c * st.mDimensions + d) 0
        = st.mPoints.getD (wrap32 (indx_array.getD c 0 * st.mDimensions + d)) 0) ∧
      ∀ i, (i < c * st.mDimensions ∨ c * st.mDimensions + st.mDimensions ≤ i) →
        cen.getD i 0 = cen0.getD i 0 := by
  have hB := block_in_bounds hc
  have hw := hv.no_wrap
  have hP : indx_array.getD c 0 * st.mDimensions + st.mDimensions ≤ st.mPoints.length :=
    point_in_bounds hv hidx
  have hr : readAt indx_array c = .ok (indx_array.getD c 0) :=
    readAt_of_lt (by simpa [indx_array] using h8)
  have key := forUp_inv (fun d cen => do
      let v ← readAt st.mPoints (wrap32 (indx_array.getD c 0 * st.mDimensions + d))
      writeAt cen (wrap32 (c * st.mDimensions + d)) v)
    (fun m cen => cen.length = cen0.length ∧
      (∀ d, d < m → cen.getD (c * st.mDimensions + d) 0
        = st.mPoints.getD (wrap32 (indx_array.getD c 0 * st.mDimensions + d)) 0) ∧
      ∀ i, (i < c * st.mDimensions ∨ c * st.mDimensions + m ≤ i) →
        cen.getD i 0 = cen0.getD i 0)
    st.mDimensions 0 cen0
    ⟨rfl, fun d hd => absurd hd (Nat.not_lt_zero d), fun _ _ => rfl⟩
    (by
      intro m t _ hm ⟨ht1, ht2, ht3⟩
      have hk : wrap32 (c * st.mDimensions + m) = c * st.mDimensions + m :=
        wrap32_of_lt (by omega)
      have hkl : c * st.mDimensions + m < t.length := by omega
      have hpl : wrap32 (indx_array.getD c 0 * st.mDimensions + m) < st.mPoints.length := by
        have := wrap32_le (indx_array.getD c 0 * st.mDimensions + m); omega
      refine ⟨t.set (c * st.mDimensions + m)
        (st.mPoints.getD (wrap32 (indx_array.getD c 0 * st.mDimensions + m)) 0), ?_, ?_, ?_, ?_⟩
      · simp only [readAt_of_lt hpl, ok_bind, hk, writeAt_of_lt _ hkl]
      · rw [List.length_set]; exact ht1
      · intro d hd
        rw [getD_set _ _ _ _ hkl]
        by_cases e : d = m
        · subst e; rw [if_pos rfl]
        · rw [if_neg (by omega)]; exact ht2 d (by omega)
      · intro i hi
        rw [getD_set _ _ _ _ hkl, if_neg (by omega)]
        exact ht3 i (by omega))
  obtain ⟨cen, h1, h2, h3, h4⟩ := key
  refine ⟨cen, ?_, h2, ?_, ?_⟩
  · simp only [initCluster, hr, ok_bind]; exact h1
  · intro d hd; exact h3 d (by omega)
  · intro i hi; exact h4 i (by omega)

/-- `initCentroids` on a valid state with at most eight clusters whose selected indices
are below `mSize`: it returns, changes only the centroid buffer, and slot `(c, d)` holds
the value of the point buffer at the 32-bit offset `indx_array[c]*mDimensions + d`. -/
theorem initCentroids_spec (st : Kmeans) (hv : Valid st) (h8 : st.mClusters ≤ 8)
    (hidx : ∀ c, c < st.mClusters → indx_array.getD c 0 < st.mSize) :
    ∃ cen, initCentroids st = .ok { st with mCentroids := cen } ∧
      cen.length = st.mCentroids.length ∧
      ∀ c d, c < st.mClusters → d < st.mDimensions →
        cen.getD (c * st.mDimensions + d) 0
          = st.mPoints.getD (wrap32 (indx_array.getD c 0 * st.mDimensions + d)) 0 := by
  have key := forUp_inv (initCluster st)
    (fun n cen => cen.length = st.mCentroids.length ∧ ∀ c d, c < n → d < st.mDimensions →
      cen.getD (c * st.mDimensions + d) 0
        = st.mPoints.getD (wrap32 (indx_array.getD c 0 * st.mDimensions + d)) 0)
    st.mClusters 0 st.mCentroids
    ⟨rfl, fun c d hc _ => absurd hc (Nat.not_lt_zero c)⟩
    (by
      intro n t _ hn ⟨ht1, ht2⟩
      obtain ⟨cen, h1, h2, h3, h4⟩ := initCluster_spec st hv n (by omega) (by omega)
        (hidx n (by omega)) t (by rw [ht1, hv.centroids_len])
      refine ⟨cen, h1, h2.trans ht1, ?_⟩
      intro c d hc hd
      by_cases e : c = n
      · subst e; exact h3 d hd
      · have hlt : c < n := by omega
        have hb : c * st.mDimensions + st.mDimensions ≤ n * st.mDimensions := by
          have := Nat.mul_le_mul_right st.mDimensions hlt
          rwa [Nat.succ_mul] at this
        rw [h4 _ (Or.inl (by omega))]
        exact ht2 c d hlt hd)
  obtain ⟨cen, h1, h2, h3⟩ := key
  refine ⟨cen, by simp only [initCentroids, h1, ok_bind, pure_eq_ok], h2, ?_⟩
  intro c d hc hd
  exact h3 c d (by omega) hd

/-! ## The iteration loop -/

theorem runLoop_succ (wT w2 fuel : Nat) :
    ∀ (n : Nat) (s : Kmeans),
      runLoop wT w2 fuel (n + 1) s = runLoop wT w2 fuel n s >>= iteration wT w2 fuel := by
  intro n
  induction n with
  | zero =>
    intro s
    simp only [runLoop, ok_bind]
    cases iteration wT w2 fuel s <;> rfl
  | succ n ih =>
    intro s
    have e : runLoop wT w2 fuel (n + 1 + 1) s
        = iteration wT w2 fuel s >>= runLoop wT w2 fuel (n + 1) := rfl
    rw [e]
    cases h : iteration wT w2 fuel s with
    | error e =>
      have e2 : runLoop wT w2 fuel (n + 1) s = .error e := by
        simp only [runLoop, h, error_bind]
      rw [e2]; rfl
    | ok t =>
      have e2 : runLoop wT w2 fuel (n + 1) s = runLoop wT w2 fuel n t := by
        simp only [runLoop, h, ok_bind]
      rw [ok_bind, ih t, e2]

theorem run_succ (wT w2 fuel n : Nat) (s : Kmeans) :
    run wT w2 fuel (n + 1) s = run wT w2 fuel n s >>= iteration wT w2 fuel := by
  unfold run
  cases initCentroids s with
  | error e => rfl
  | ok t => simp only [ok_bind, runLoop_succ]

theorem SameButSums.toInput {s t : Kmeans} (h : SameButSums s t) : SameInput s t :=
  ⟨h.1, h.2.2.1, h.2.2.2.1, h.2.2.2.2.1⟩

theorem SameButCentroids.asInput {s t : Kmeans} (h : SameButCentroids s t) : SameInput s t :=
  ⟨h.1, h.2.2.2.1, h.2.2.2.2.1, h.2.2.2.2.2.1⟩

theorem SameInput.followedBy {s t u : Kmeans} (h1 : SameInput s t) (h2 : SameInput t u) :
    SameInput s u :=
  ⟨h2.1.trans h1.1, h2.2.1.trans h1.2.1, h2.2.2.1.trans h1.2.2.1, h2.2.2.2.trans h1.2.2.2⟩

/-- One iteration on a valid state whose 32-bit point-loop bound does not wrap: each of
its three steps returns, and after the assignment step the counts add up to `mSize`. -/
theorem iteration_total (wT w2 fuel : Nat) (s : Kmeans) (hv : Valid s)
    (hd : 1 ≤ s.mDimensions) (hk : 1 ≤ s.mClusters)
    (hsz : s.mSize * s.mDimensions < 4294967296) (hf : s.mSize < fuel) :
    ∃ s1 s2 s3, reset s = .ok s1 ∧ assignment wT w2 fuel s1 = .ok s2 ∧
      s2.mAssigned.sum = s.mSize ∧ update s2 = .ok s3 ∧ iteration wT w2 fuel s = .ok s3 ∧
      Valid s3 ∧ SameInput s s3 := by
  have h1 := reset_ok hv
  have f1 := reset_frame h1
  have v1 := f1.keepsValid hv
  have hsize : s.mSize < 4294967296 := by
    have := Nat.le_mul_of_pos_right s.mSize hd
    omega
  obtain ⟨s2, h2, hsum⟩ := assignment_counts wT w2 fuel _ v1 hd hk hsz hf
    (by simpa using hsize)
  have f2 := assignment_frame h2
  have v2 := f2.keepsValid v1
  obtain ⟨cen, h3, _, _⟩ := update_spec s2 v2
  have f3 := update_frame h3
  refine ⟨_, s2, _, h1, h2, by simpa using hsum, h3, ?_, f3.preservesValid v2,
    (f1.toInput.followedBy f2.toInput).followedBy f3.asInput⟩
  simp only [iteration, h1, ok_bind, h2, h3]

/-- Under the conditions of `iteration_total` and `initCentroids_spec`, `run` returns for
every iteration count. -/
theorem run_total (wT w2 fuel : Nat) (st : Kmeans) (hv : Valid st)
    (hd : 1 ≤ st.mDimensions) (hk : 1 ≤ st.mClusters)
    (hsz : st.mSize * st.mDimensions < 4294967296) (hf : st.mSize < fuel)
    (h8 : st.mClusters ≤ 8) (hidx : ∀ c, c < st.mClusters → indx_array.getD c 0 < st.mSize) :
    ∀ n, ∃ s, run wT w2 fuel n st = .ok s ∧ Valid s ∧ SameInput st s := by
  intro n
  induction n with
  | zero =>
    obtain ⟨cen, h1, _, _⟩ := initCentroids_spec st hv h8 hidx
    have f := initCentroids_frame h1
    exact ⟨_, by simp only [run, h1, ok_bind, runLoop], f.preservesValid hv, f.asInput⟩
  | succ n ih =>
    obtain ⟨s, h1, v, ⟨e1, e2, e3, e4⟩⟩ := ih
    obtain ⟨_, _, s3, _, _, _, _, h2, v3, f3⟩ := iteration_total wT w2 fuel s v
      (by rw [e4]; exact hd) (by rw [e3]; exact hk) (by rw [e2, e4]; exact hsz)
      (by rw [e2]; exact hf)
    exact ⟨s3, by rw [run_succ, h1, ok_bind, h2], v3, SameInput.followedBy ⟨e1, e2, e3, e4⟩ f3⟩

theorem SameInput.same (s : Kmeans) : SameInput s s := ⟨rfl, rfl, rfl, rfl⟩

theorem iteration_input {wT w2 fuel : Nat} {s t : Kmeans}
    (h : iteration wT w2 fuel s = .ok t) : SameInput s t := by
  unfold iteration at h
  cases h1 : reset s with
  | error e => simp [h1] at h
  | ok s1 =>
    cases h2 : assignment wT w2 fuel s1 with
    | error e => simp [h1, h2] at h
    | ok s2 =>
      simp only [h1, h2, ok_bind] at h
      exact ((reset_frame h1).toInput.followedBy (assignment_frame h2).toInput).followedBy
        (update_frame h).asInput

theorem runLoop_input {wT w2 fuel : Nat} :
    ∀ (n : Nat) (s t : Kmeans), runLoop wT w2 fuel n s = .ok t → SameInput s t := by
  intro n
  induction n with
  | zero => intro s t h; cases h; exact SameInput.same s
  | succ n ih =>
    intro s t h
    simp only [runLoop] at h
    cases h1 : iteration wT w2 fuel s with
    | error e => rw [h1] at h; cases h
    | ok s1 => rw [h1] at h; exact (iteration_input h1).followedBy (ih s1 t h)

theorem run_input {wT w2 fuel n : Nat} {s t : Kmeans}
    (h : run wT w2 fuel n s = .ok t) : SameInput s t := by
  unfold run at h
  cases h1 : initCentroids s with
  | error e => rw [h1] at h; cases h
  | ok s1 => rw [h1] at h; exact (initCentroids_frame h1).asInput.followedBy (runLoop_input n s1 t h)

theorem getElem?_of_lt (xs : List Nat) (i : Nat) (h : i < xs.length) :
    xs[i]? = some (xs.getD i 0) := by
  simp [List.getElem?_eq_getElem h]

theorem slot_in_bounds {st : Kmeans} {c d : Nat} (hc : c < st.mClusters)
    (hd : d < st.mDimensions) : c * st.mDimensions + d < st.mClusters * st.mDimensions := by
  have := block_in_bounds hc
  omega

theorem indx_array_le (c : Nat) : indx_array.getD c 0 ≤ 149 := by
  rcases Nat.lt_or_ge c 8 with h | h
  · interval_cases c <;> simp [indx_array]
  · have e : indx_array.getD c 0 = 0 := by
      rw [List.getD_eq_getElem?_getD, List.getElem?_eq_none (by simpa [indx_array] using h)]
      rfl
    omega

theorem indx_array_injective (c c' : Nat) (hc : c < 8) (hc' : c' < 8)
    (h : indx_array.getD c 0 = indx_array.getD c' 0) : c = c' := by
  interval_cases c <;> interval_cases c' <;> simp [indx_array] at h ⊢

/-- C1 (as stated, refuted): in `tieState` the point at offset `0` is at the same computed
distance `1` from centroid 0 and centroid 1, which is the minimum, and the assignment
step adds it to cluster 1: after the point, and after the whole step, cluster 0 has not
received it. -/
theorem tie_is_assigned_to_cluster_one :
    Valid tieState ∧
    centroidDist 32 64 tieState 0 0 = .ok 1 ∧ centroidDist 32 64 tieState 0 1 = .ok 1 ∧
    nearest 32 64 tieState 0 = .ok (1, 1) ∧
    assignPoint 32 64 0 tieState = .ok { tieState with mAccu := [0, 5], mAssigned := [0, 1] } ∧
    assignPoint 32 64 0 tieState ≠ .ok { tieState with mAccu := [5, 0], mAssigned := [1, 0] } ∧
    assignment 32 64 3 tieState = .ok { tieState with mAccu := [4, 5], mAssigned := [1, 1] } := by
  decide

/-- C1 (amended): for the point `j` of a valid engine with at least two clusters, if the
computed distances to centroid 0 and centroid 1 are equal and minimal over all clusters,
the assignment step adds the point (coordinates and count) to the cluster of the highest
index among those at the minimal distance, which is never cluster 0. -/
theorem tie_goes_to_highest_minimal_index (wT w2 : Nat) (st : Kmeans) (j d : Nat)
    (hv : Valid st) (hj : j < st.mSize) (hk : 2 ≤ st.mClusters)
    (h0 : centroidDist wT w2 st (j * st.mDimensions) 0 = .ok d)
    (h1 : centroidDist wT w2 st (j * st.mDimensions) 1 = .ok d)
    (hmin : ∀ c dc, c < st.mClusters →
      centroidDist wT w2 st (j * st.mDimensions) c = .ok dc → d ≤ dc) :
    ∃ clusterIdx st',
      assignPoint wT w2 (j * st.mDimensions) st = .ok st' ∧
      accumulate wT st (j * st.mDimensions) clusterIdx = .ok st'.mAccu ∧
      st'.mAssigned
        = st.mAssigned.set clusterIdx (wrap32 (st.mAssigned.getD clusterIdx 0 + 1)) ∧
      1 ≤ clusterIdx ∧ clusterIdx < st.mClusters ∧
      centroidDist wT w2 st (j * st.mDimensions) clusterIdx = .ok d ∧
      ∀ c dc, clusterIdx < c → c < st.mClusters →
        centroidDist wT w2 st (j * st.mDimensions) c = .ok dc → d < dc := by
  have hp : j * st.mDimensions + st.mDimensions ≤ st.mPoints.length := by
    have := Nat.mul_le_mul_right st.mDimensions hj
    rw [Nat.succ_mul] at this
    rw [hv.points_len]; exact this
  obtain ⟨r, hr, hr1, hr2⟩ := nearest_spec wT w2 st (j * st.mDimensions) hp hv.centroids_len
  obtain ⟨hidx, hdist⟩ := hr1 (by omega)
  obtain ⟨accu, ha1, _, ha3⟩ :=
    assignPoint_spec wT w2 st (j * st.mDimensions) r hp hv.accu_len hv.assigned_len hr hidx
  have hle : d ≤ r.1 := hmin r.2 r.1 hidx hdist
  obtain ⟨d0, e0, l0, _⟩ := hr2 0 (by omega)
  have hd0 : d0 = d := by rw [h0] at e0; cases e0; rfl
  have hrd : r.1 = d := by omega
  obtain ⟨d1, e1, _, m1⟩ := hr2 1 (by omega)
  have hd1 : d1 = d := by rw [h1] at e1; cases e1; rfl
  refine ⟨r.2, _, ha3, ha1, rfl, m1 (by omega), hidx, by rw [hdist, hrd], ?_⟩
  intro c dc hc1 hc2 hc3
  obtain ⟨dc', ec, lc, mc⟩ := hr2 c hc2
  have : dc' = dc := by rw [hc3] at ec; cases ec; rfl
  subst this
  rcases Nat.lt_or_ge d dc' with h | h
  · exact h
  · exact absurd (mc (by omega)) (by omega)

theorem tie_goes_to_highest_minimal_index_witness :
    Valid tieState ∧ 0 < tieState.mSize ∧ 2 ≤ tieState.mClusters ∧
    ∃ clusterIdx st',
      assignPoint 32 64 (0 * tieState.mDimensions) tieState = .ok st' ∧
      accumulate 32 tieState (0 * tieState.mDimensions) clusterIdx = .ok st'.mAccu ∧
      st'.mAssigned = tieState.mAssigned.set clusterIdx
        (wrap32 (tieState.mAssigned.getD clusterIdx 0 + 1)) ∧
      1 ≤ clusterIdx ∧ clusterIdx < tieState.mClusters ∧
      centroidDist 32 64 tieState (0 * tieState.mDimensions) clusterIdx = .ok 1 ∧
      ∀ c dc, clusterIdx < c → c < tieState.mClusters →
        centroidDist 32 64 tieState (0 * tieState.mDimensions) c = .ok dc → 1 < dc :=
  ⟨by decide, by decide, by decide,
    tie_goes_to_highest_minimal_index 32 64 tieState 0 1 (by decide) (by decide) (by decide)
      (by decide) (by decide)
      (by
        intro c dc hc
        have h2 : c = 0 ∨ c = 1 := by
          have : c < 2 := hc
          omega
        rcases h2 with h | h <;> subst h <;> intro e <;>
          · have e2 : (Except.ok 1 : Except Fault Nat) = .ok dc := e
            cases e2; exact Nat.le_refl 1)⟩

/-- C2: for the point `j` of a valid engine with at least one cluster, the cluster scan
of the assignment step returns a cluster index `clusterIdx < mClusters`, the point is
added to that cluster, and the computed distance from the point to centroid `clusterIdx`
is at most the computed distance to the centroid of every cluster `c < mClusters`. -/
theorem assignment_picks_nearest (wT w2 : Nat) (st : Kmeans) (j : Nat)
    (hv : Valid st) (hj : j < st.mSize) (hk : 1 ≤ st.mClusters) :
    ∃ minDist clusterIdx st',
      nearest wT w2 st (j * st.mDimensions) = .ok (minDist, clusterIdx) ∧
      assignPoint wT w2 (j * st.mDimensions) st = .ok st' ∧
      accumulate wT st (j * st.mDimensions) clusterIdx = .ok st'.mAccu ∧
      st'.mAssigned
        = st.mAssigned.set clusterIdx (wrap32 (st.mAssigned.getD clusterIdx 0 + 1)) ∧
      clusterIdx < st.mClusters ∧
      centroidDist wT w2 st (j * st.mDimensions) clusterIdx = .ok minDist ∧
      ∀ c, c < st.mClusters →
        ∃ dc, centroidDist wT w2 st (j * st.mDimensions) c = .ok dc ∧ minDist ≤ dc := by
  have hp : j * st.mDimensions + st.mDimensions ≤ st.mPoints.length := by
    have := Nat.mul_le_mul_right st.mDimensions hj
    rw [Nat.succ_mul] at this
    rw [hv.points_len]; exact this
  obtain ⟨r, hr, hr1, hr2⟩ := nearest_spec wT w2 st (j * st.mDimensions) hp hv.centroids_len
  obtain ⟨hidx, hdist⟩ := hr1 (by omega)
  obtain ⟨accu, ha1, _, ha3⟩ :=
    assignPoint_spec wT w2 st (j * st.mDimensions) r hp hv.accu_len hv.assigned_len hr hidx
  refine ⟨r.1, r.2, _, hr, ha3, ha1, rfl, hidx, hdist, ?_⟩
  intro c hc
  obtain ⟨dc, e, l, _⟩ := hr2 c hc
  exact ⟨dc, e, l⟩

theorem assignment_picks_nearest_witness :
    Valid tieState ∧ 1 < tieState.mSize ∧ 1 ≤ tieState.mClusters ∧
    ∃ minDist clusterIdx st',
      nearest 32 64 tieState (1 * tieState.mDimensions) = .ok (minDist, clusterIdx) ∧
      assignPoint 32 64 (1 * tieState.mDimensions) tieState = .ok st' ∧
      accumulate 32 tieState (1 * tieState.mDimensions) clusterIdx = .ok st'.mAccu ∧
      st'.mAssigned = tieState.mAssigned.set clusterIdx
        (wrap32 (tieState.mAssigned.getD clusterIdx 0 + 1)) ∧
      clusterIdx < tieState.mClusters ∧
      centroidDist 32 64 tieState (1 * tieState.mDimensions) clusterIdx = .ok minDist ∧
      ∀ c, c < tieState.mClusters →
        ∃ dc, centroidDist 32 64 tieState (1 * tieState.mDimensions) c = .ok dc ∧ minDist ≤ dc :=
  ⟨by decide, by decide, by decide,
    assignment_picks_nearest 32 64 tieState 1 (by decide) (by decide) (by decide)⟩



/-- C3: on a valid engine state with `mDimensions >= 1`, `mClusters >= 1` and
`mSize*mDimensions < 2^32`, given more fuel than points, the assignment step run after the
reset (or from any counts that are all zero) returns and leaves the counts summing to
`mSize`; the same holds for the assignment step of the iteration that follows every
state `run` reaches, and `run` reaches a state for every iteration count when
initialisation stays inside its buffers. -/
theorem assignment_conserves_points (wT w2 fuel : Nat) (st : Kmeans) (hv : Valid st)
    (hd : 1 ≤ st.mDimensions) (hk : 1 ≤ st.mClusters)
    (hsz : st.mSize * st.mDimensions < 4294967296) (hf : st.mSize < fuel) :
    (∃ s1 s2, reset st = .ok s1 ∧ assignment wT w2 fuel s1 = .ok s2 ∧
      s2.mAssigned.sum = st.mSize) ∧
    (st.mAssigned.sum = 0 →
      ∃ s2, assignment wT w2 fuel st = .ok s2 ∧ s2.mAssigned.sum = st.mSize) ∧
    (∀ n s, run wT w2 fuel n st = .ok s →
      ∃ s1 s2 s3, reset s = .ok s1 ∧ assignment wT w2 fuel s1 = .ok s2 ∧
        s2.mAssigned.sum = st.mSize ∧ update s2 = .ok s3 ∧
        run wT w2 fuel (n + 1) st = .ok s3) ∧
    (st.mClusters ≤ 8 → (∀ c, c < st.mClusters → indx_array.getD c 0 < st.mSize) →
      ∀ n, ∃ s, run wT w2 fuel n st = .ok s) := by
  have hsize : st.mSize < 4294967296 := by
    have := Nat.le_mul_of_pos_right st.mSize hd
    omega
  refine ⟨?_, ?_, ?_, ?_⟩
  · obtain ⟨s1, s2, _, h1, h2, h3, _⟩ := iteration_total wT w2 fuel st hv hd hk hsz hf
    exact ⟨s1, s2, h1, h2, h3⟩
  · intro h0
    obtain ⟨s2, h1, h2⟩ := assignment_counts wT w2 fuel st hv hd hk hsz hf (by omega)
    exact ⟨s2, h1, by omega⟩
  · intro n s hs
    obtain ⟨_, e2, e3, e4⟩ := run_input hs
    obtain ⟨s1, s2, s3, h1, h2, h3, h4, h5, _⟩ := iteration_total wT w2 fuel s (run_valid hv hs)
      (by rw [e4]; exact hd) (by rw [e3]; exact hk) (by rw [e2, e4]; exact hsz)
      (by rw [e2]; exact hf)
    exact ⟨s1, s2, s3, h1, h2, h3.trans e2, h4, by rw [run_succ, hs, ok_bind, h5]⟩
  · intro h8 hidx n
    obtain ⟨s, h, _⟩ := run_total wT w2 fuel st hv hd hk hsz hf h8 hidx n
    exact ⟨s, h⟩

theorem assignment_conserves_points_witness :
    (∃ s1 s2, reset tieState = .ok s1 ∧ assignment 32 64 3 s1 = .ok s2 ∧
      s2.mAssigned.sum = tieState.mSize) ∧
    (tieState.mAssigned.sum = 0 →
      ∃ s2, assignment 32 64 3 tieState = .ok s2 ∧ s2.mAssigned.sum = tieState.mSize) ∧
    (∀ n s, run 32 64 3 n tieState = .ok s →
      ∃ s1 s2 s3, reset s = .ok s1 ∧ assignment 32 64 3 s1 = .ok s2 ∧
        s2.mAssigned.sum = tieState.mSize ∧ update s2 = .ok s3 ∧
        run 32 64 3 (n + 1) tieState = .ok s3) ∧
    (tieState.mClusters ≤ 8 →
      (∀ c, c < tieState.mClusters → indx_array.getD c 0 < tieState.mSize) →
      ∀ n, ∃ s, run 32 64 3 n tieState = .ok s) :=
  assignment_conserves_points 32 64 3 tieState (by decide) (by decide) (by decide) (by decide)
    (by decide)

/-- C4: `update` on a valid engine state returns, and for every cluster `c` whose count
`mAssigned[c]` is non-zero and every dimension `d < mDimensions` the centroid entry
`mCentroids[c*mDimensions+d]` is afterwards `mAccu[c*mDimensions+d] / mAssigned[c]`. -/
theorem update_sets_mean_of_nonempty (st : Kmeans) (hv : Valid st) :
    ∃ st', update st = .ok st' ∧
      ∀ c d, c < st.mClusters → d < st.mDimensions → st.mAssigned.getD c 0 ≠ 0 →
        st'.mCentroids[c * st.mDimensions + d]?
          = some (st.mAccu.getD (c * st.mDimensions + d) 0 / st.mAssigned.getD c 0) := by
  obtain ⟨cen, h1, h2, h3⟩ := update_spec st hv
  refine ⟨_, h1, ?_⟩
  intro c d hc hd hn
  have hl : c * st.mDimensions + d < cen.length := by
    rw [h2, hv.centroids_len]; exact slot_in_bounds hc hd
  show cen[c * st.mDimensions + d]? = _
  rw [getElem?_of_lt cen _ hl, h3 c d hc hd, if_pos hn]

theorem update_sets_mean_of_nonempty_witness :
    Valid halfEmptyState ∧
    ∃ st', update halfEmptyState = .ok st' ∧
      ∀ c d, c < halfEmptyState.mClusters → d < halfEmptyState.mDimensions →
        halfEmptyState.mAssigned.getD c 0 ≠ 0 →
        st'.mCentroids[c * halfEmptyState.mDimensions + d]?
          = some (halfEmptyState.mAccu.getD (c * halfEmptyState.mDimensions + d) 0
              / halfEmptyState.mAssigned.getD c 0) :=
  ⟨by decide, update_sets_mean_of_nonempty halfEmptyState (by decide)⟩

/-- C5: `update` on a valid engine state returns and leaves every entry of the centroid
of a cluster whose count is zero as it was, whatever the accumulator holds; and when the
assignment step of the iteration that follows a state reached by `run` gives a cluster no
point, that iteration returns with the centroid of that cluster as before it. -/
theorem update_keeps_empty_cluster (st : Kmeans) (hv : Valid st) :
    (∃ st', update st = .ok st' ∧
      ∀ c d, c < st.mClusters → d < st.mDimensions → st.mAssigned.getD c 0 = 0 →
        st'.mCentroids[c * st.mDimensions + d]? = st.mCentroids[c * st.mDimensions + d]?) ∧
    (∀ wT w2 fuel n s s1, run wT w2 fuel n st = .ok s →
      (reset s >>= assignment wT w2 fuel) = .ok s1 →
      ∃ s2, iteration wT w2 fuel s = .ok s2 ∧ run wT w2 fuel (n + 1) st = .ok s2 ∧
        ∀ c d, c < st.mClusters → d < st.mDimensions → s1.mAssigned.getD c 0 = 0 →
          s2.mCentroids[c * st.mDimensions + d]? = s.mCentroids[c * st.mDimensions + d]?) := by
  have main : ∀ t : Kmeans, Valid t → ∃ t', update t = .ok t' ∧
      ∀ c d, c < t.mClusters → d < t.mDimensions → t.mAssigned.getD c 0 = 0 →
        t'.mCentroids[c * t.mDimensions + d]? = t.mCentroids[c * t.mDimensions + d]? := by
    intro t ht
    obtain ⟨cen, h1, h2, h3⟩ := update_spec t ht
    refine ⟨_, h1, ?_⟩
    intro c d hc hd hn
    have hl : c * t.mDimensions + d < t.mCentroids.length := by
      rw [ht.centroids_len]; exact slot_in_bounds hc hd
    show cen[c * t.mDimensions + d]? = _
    rw [getElem?_of_lt cen _ (by rw [h2]; exact hl), getElem?_of_lt _ _ hl, h3 c d hc hd,
      if_neg (by simpa using hn)]
  refine ⟨main st hv, ?_⟩
  intro wT w2 fuel n s s1 hs h1
  have vs := run_valid hv hs
  obtain ⟨_, _, e3, e4⟩ := run_input hs
  cases hr : reset s with
  | error e => rw [hr] at h1; cases h1
  | ok s0 =>
    rw [hr, ok_bind] at h1
    have f := (reset_frame hr).andThen (assignment_frame h1)
    obtain ⟨s2, h2, h3⟩ := main s1 (f.keepsValid vs)
    obtain ⟨_, g2, _, g4, g5, _, _⟩ := f
    have hit : iteration wT w2 fuel s = .ok s2 := by
      simp only [iteration, hr, ok_bind, h1, h2]
    refine ⟨s2, hit, by rw [run_succ, hs, ok_bind, hit], ?_⟩
    intro c d hc hd hn
    have := h3 c d (by rw [g4, e3]; exact hc) (by rw [g5, e4]; exact hd) hn
    rw [g5, e4, g2] at this
    exact this

theorem update_keeps_empty_cluster_witness :
    Valid halfEmptyState ∧
    (∃ st', update halfEmptyState = .ok st' ∧
      ∀ c d, c < halfEmptyState.mClusters → d < halfEmptyState.mDimensions →
        halfEmptyState.mAssigned.getD c 0 = 0 →
        st'.mCentroids[c * halfEmptyState.mDimensions + d]?
          = halfEmptyState.mCentroids[c * halfEmptyState.mDimensions + d]?) ∧
    (∀ wT w2 fuel n s s1, run wT w2 fuel n halfEmptyState = .ok s →
      (reset s >>= assignment wT w2 fuel) = .ok s1 →
      ∃ s2, iteration wT w2 fuel s = .ok s2 ∧
        run wT w2 fuel (n + 1) halfEmptyState = .ok s2 ∧
        ∀ c d, c < halfEmptyState.mClusters → d < halfEmptyState.mDimensions →
          s1.mAssigned.getD c 0 = 0 →
          s2.mCentroids[c * halfEmptyState.mDimensions + d]?
            = s.mCentroids[c * halfEmptyState.mDimensions + d]?) :=
  ⟨by decide, update_keeps_empty_cluster halfEmptyState (by decide)⟩

/-- C6 (the code at the failing input): with `T = uint32_t`, `T2 = uint64_t` and one
dimension, `euclideanDist` of the vectors `(65536)` and `(0)` returns `0`, although the
squared difference `2^32` is a value of `T2`: the square is computed in `T`. -/
theorem euclideanDist_squares_in_T :
    euclideanDist 32 64 1 [65536] 0 [0] 0 = .ok 0 ∧
    (65536 - 0) ^ 2 = 4294967296 ∧ 4294967296 < 2 ^ 64 := by
  decide

/-- C7 (the code at the failing input): with `T = uint32_t` and `T2 = uint64_t`, after
`run(0)` on `farState` the only centroid is the point `(65535, 65535)`; the `T2` distances
of the two points to it are `0` and `8589672450`, whose sum is a value of `T2`, and
`getSSE` returns `4294705154`, the second distance reduced modulo `2^32`. -/
theorem getSSE_truncates_distance_to_T :
    Valid farState ∧
    run 32 64 3 0 farState = .ok { farState with mCentroids := [65535, 65535] } ∧
    centroidDist 32 64 { farState with mCentroids := [65535, 65535] } 0 0 = .ok 0 ∧
    centroidDist 32 64 { farState with mCentroids := [65535, 65535] } 2 0
      = .ok 8589672450 ∧
    0 + 8589672450 < 2 ^ 64 ∧
    getSSE 32 64 3 { farState with mCentroids := [65535, 65535] } = .ok 4294705154 ∧
    8589672450 % 2 ^ 32 = 4294705154 := by
  decide

/-- C8 (as stated, refuted): `wideState` has 150 points, `2^26 >= 1` dimensions and two
clusters; `initCentroids` returns, and the first coordinate of centroid 1 is `0`, the
first coordinate of point 6, while the first coordinate of point `indx_array[1] = 70`
is `1`: the 32-bit offset `70 * 2^26` wraps to `6 * 2^26`. -/
theorem initCentroids_offset_wraps :
    Valid wideState ∧ 149 < wideState.mSize ∧ 1 ≤ wideState.mDimensions ∧
    1 ≤ wideState.mClusters ∧ wideState.mClusters ≤ 8 ∧
    indx_array.getD 1 0 = 70 ∧ wrap32 (70 * 67108864 + 0) = 6 * 67108864 + 0 ∧
    ∃ st', initCentroids wideState = .ok st' ∧
      st'.mCentroids[1 * 67108864 + 0]? = some 0 ∧
      wideState.mPoints[6 * 67108864 + 0]? = some 0 ∧
      wideState.mPoints[70 * 67108864 + 0]? = some 1 := by
  have hv : Valid wideState :=
    ⟨by simp only [wideState, List.length_append, List.length_replicate],
      by simp only [wideState, List.length_replicate],
      by simp only [wideState, List.length_replicate],
      rfl, by decide⟩
  have hw : wrap32 (70 * 67108864 + 0) = 6 * 67108864 + 0 := by decide
  have hidx : ∀ c, c < wideState.mClusters → indx_array.getD c 0 < wideState.mSize := by
    intro c _
    have := indx_array_le c
    show indx_array.getD c 0 < 150
    omega
  obtain ⟨cen, h1, h2, h3⟩ := initCentroids_spec wideState hv (by decide) hidx
  have e6 : wideState.mPoints[6 * 67108864 + 0]? = some 0 := by
    show (List.replicate 4697620480 0 ++ List.replicate 5368709120 1)[6 * 67108864 + 0]? = _
    rw [List.getElem?_append_left (by rw [List.length_replicate]; decide)]
    exact List.getElem?_replicate_of_lt (by decide)
  have e70 : wideState.mPoints[70 * 67108864 + 0]? = some 1 := by
    show (List.replicate 4697620480 0 ++ List.replicate 5368709120 1)[70 * 67108864 + 0]? = _
    rw [List.getElem?_append_right (by rw [List.length_replicate])]
    exact List.getElem?_replicate_of_lt (by rw [List.length_replicate]; decide)
  refine ⟨hv, by decide, by decide, by decide, by decide, by decide, hw, _, h1, ?_, e6, e70⟩
  have hl : 1 * 67108864 + 0 < cen.length := by
    rw [h2]
    show 1 * 67108864 + 0 < (List.replicate 134217728 0).length
    rw [List.length_replicate]; decide
  have h4 := h3 1 0 (by decide) (by decide)
  have h5 : indx_array.getD 1 0 * wideState.mDimensions + 0 = 70 * 67108864 + 0 := by decide
  rw [h5, hw] at h4
  show cen[1 * 67108864 + 0]? = _
  rw [getElem?_of_lt cen _ hl]
  have h6 : 1 * wideState.mDimensions + 0 = 1 * 67108864 + 0 := rfl
  rw [h6] at h4
  rw [h4, List.getD_eq_getElem?_getD, e6]
  rfl

/-- C8 (amended): on a valid engine state with `mSize > 149`, at most eight clusters and
`mSize*mDimensions < 2^32`, `initCentroids` returns and the centroid of every cluster `c`
equals, coordinate for coordinate, the point at index `indx_array[c]`; the selected
indices are below `mSize` and pairwise distinct. -/
theorem initCentroids_copies_listed_points (st : Kmeans) (hv : Valid st)
    (hs : 149 < st.mSize) (h8 : st.mClusters ≤ 8)
    (hsz : st.mSize * st.mDimensions < 4294967296) :
    (∃ st', initCentroids st = .ok st' ∧
      ∀ c d, c < st.mClusters → d < st.mDimensions →
        ∃ v, st'.mCentroids[c * st.mDimensions + d]? = some v ∧
          st.mPoints[indx_array.getD c 0 * st.mDimensions + d]? = some v) ∧
    (∀ c, c < st.mClusters → indx_array.getD c 0 < st.mSize) ∧
    (∀ c c', c < st.mClusters → c' < st.mClusters → c ≠ c' →
      indx_array.getD c 0 ≠ indx_array.getD c' 0) := by
  have hidx : ∀ c, c < st.mClusters → indx_array.getD c 0 < st.mSize := by
    intro c _
    have := indx_array_le c
    omega
  refine ⟨?_, hidx, ?_⟩
  · obtain ⟨cen, h1, h2, h3⟩ := initCentroids_spec st hv h8 hidx
    refine ⟨_, h1, ?_⟩
    intro c d hc hd
    have hl : c * st.mDimensions + d < cen.length := by
      rw [h2, hv.centroids_len]; exact slot_in_bounds hc hd
    have hp := point_in_bounds hv (hidx c hc)
    have hpl : indx_array.getD c 0 * st.mDimensions + d < st.mPoints.length := by omega
    have hw : wrap32 (indx_array.getD c 0 * st.mDimensions + d)
        = indx_array.getD c 0 * st.mDimensions + d :=
      wrap32_of_lt (by rw [hv.points_len] at hpl; omega)
    refine ⟨cen.getD (c * st.mDimensions + d) 0, getElem?_of_lt cen _ hl, ?_⟩
    rw [h3 c d hc hd, hw]
    exact getElem?_of_lt _ _ hpl
  · intro c c' hc hc' hne h
    exact hne (indx_array_injective c c' (by omega) (by omega) h)

theorem initCentroids_copies_listed_points_witness :
    Valid rampState ∧ 149 < rampState.mSize ∧ rampState.mClusters ≤ 8 ∧
    rampState.mSize * rampState.mDimensions < 4294967296 ∧
    (∃ st', initCentroids rampState = .ok st' ∧
      ∀ c d, c < rampState.mClusters → d < rampState.mDimensions →
        ∃ v, st'.mCentroids[c * rampState.mDimensions + d]? = some v ∧
          rampState.mPoints[indx_array.getD c 0 * rampState.mDimensions + d]? = some v) ∧
    (∀ c, c < rampState.mClusters → indx_array.getD c 0 < rampState.mSize) ∧
    (∀ c c', c < rampState.mClusters → c' < rampState.mClusters → c ≠ c' →
      indx_array.getD c 0 ≠ indx_array.getD c' 0) :=
  have hv : Valid rampState :=
    ⟨by simp [rampState], by simp [rampState], by simp [rampState], by simp [rampState],
      by decide⟩
  ⟨hv, by decide, by decide, by decide,
    initCentroids_copies_listed_points rampState hv (by decide) (by decide) (by decide)⟩

/-- C9: `run(0)` is `initCentroids` alone; on a valid engine state on which
initialisation stays inside its buffers it returns the state that `initCentroids`
returns, with the accumulator and count buffers untouched, and `getSSE` called
afterwards is `getSSE` of that state. -/
theorem run_zero_only_initialises (wT w2 fuel fuel' : Nat) (st : Kmeans) (hv : Valid st)
    (h8 : st.mClusters ≤ 8)
    (hidx : ∀ c, c < st.mClusters → indx_array.getD c 0 < st.mSize) :
    run wT w2 fuel 0 st = initCentroids st ∧
    ∃ s, initCentroids st = .ok s ∧ run wT w2 fuel 0 st = .ok s ∧
      s.mAccu = st.mAccu ∧ s.mAssigned = st.mAssigned ∧ s.mPoints = st.mPoints ∧
      (run wT w2 fuel 0 st >>= getSSE wT w2 fuel') = getSSE wT w2 fuel' s := by
  have e : run wT w2 fuel 0 st = initCentroids st := by
    unfold run
    cases initCentroids st <;> rfl
  obtain ⟨cen, h1, _, _⟩ := initCentroids_spec st hv h8 hidx
  refine ⟨e, _, h1, by rw [e, h1], rfl, rfl, rfl, ?_⟩
  rw [e, h1, ok_bind]

theorem run_zero_only_initialises_witness :
    Valid farState ∧ farState.mClusters ≤ 8 ∧
    (∀ c, c < farState.mClusters → indx_array.getD c 0 < farState.mSize) ∧
    run 32 64 3 0 farState = initCentroids farState ∧
    ∃ s, initCentroids farState = .ok s ∧ run 32 64 3 0 farState = .ok s ∧
      s.mAccu = farState.mAccu ∧ s.mAssigned = farState.mAssigned ∧
      s.mPoints = farState.mPoints ∧
      (run 32 64 3 0 farState >>= getSSE 32 64 3) = getSSE 32 64 3 s :=
  ⟨by decide, by decide, by decide,
    run_zero_only_initialises 32 64 3 3 farState (by decide) (by decide) (by decide)⟩

/-- C10: the state after `run(n)` is the `n`-fold application of the iteration step to
the outcome of `initCentroids`; `run(n+1)` is one iteration step applied to the state
after `run(n)`; and the iteration step is reset, then assignment, then update, with
nothing else between them. -/
theorem run_iterates_exactly (wT w2 fuel : Nat) (st : Kmeans) (n : Nat) :
    run wT w2 fuel n st
      = Nat.iterate (fun r => r >>= iteration wT w2 fuel) n (initCentroids st) ∧
    run wT w2 fuel (n + 1) st = run wT w2 fuel n st >>= iteration wT w2 fuel ∧
    ∀ s, iteration wT w2 fuel s
      = reset s >>= fun s1 => assignment wT w2 fuel s1 >>= fun s2 => update s2 := by
  refine ⟨?_, run_succ wT w2 fuel n st, fun _ => rfl⟩
  induction n with
  | zero =>
    unfold run
    cases initCentroids st <;> rfl
  | succ n ih => rw [run_succ, ih, Function.iterate_succ_apply']

/-! ## Faults and totality of the steps -/

theorem readAt_of_ge {xs : List Nat} {i : Nat} (h : xs.length ≤ i) :
    readAt xs i = .error .outOfBounds := by
  simp [readAt, List.getElem?_eq_none h]

theorem forUp_append {σ : Type} (body : Nat → σ → Except Fault σ) :
    ∀ (a b i : Nat) (s : σ),
      forUp body (a + b) i s = forUp body a i s >>= forUp body b (i + a) := by
  intro a
  induction a with
  | zero => intro b i s; simp [forUp]
  | succ a ih =>
    intro b i s
    have e : a + 1 + b = (a + b) + 1 := by omega
    rw [e]
    simp only [forUp]
    cases body i s with
    | error e => rfl
    | ok t =>
      simp only [ok_bind]
      rw [ih b (i + 1) t]
      have e2 : i + 1 + a = i + (a + 1) := by omega
      rw [e2]

/-- The assignment step on a valid state whose 32-bit loop bound does not wrap returns,
whatever the counts hold. -/
theorem assignment_ok (wT w2 fuel : Nat) (st : Kmeans) (hv : Valid st)
    (hd : 1 ≤ st.mDimensions) (hk : 1 ≤ st.mClusters)
    (hsz : st.mSize * st.mDimensions < 4294967296) (hf : st.mSize < fuel) :
    ∃ t, assignment wT w2 fuel st = .ok t := by
  unfold assignment
  rw [wrap32_of_lt hsz]
  have e := strideLoop_eq_forUp st.mDimensions (assignPoint wT w2) st.mSize hd hsz
    st.mSize 0 fuel st (by omega) hf
  rw [Nat.zero_mul] at e
  rw [e]
  have key := forUp_inv (fun j => assignPoint wT w2 (j * st.mDimensions))
    (fun _ t => SameButSums st t) st.mSize 0 st (SameButSums.unchanged st)
    (by
      intro j t _ hj ht
      have hvt : Valid t := ht.keepsValid hv
      obtain ⟨_, _, e3, e4, e5, _, _⟩ := id ht
      have hp := point_in_bounds hvt (show j < t.mSize from by rw [e3]; omega)
      obtain ⟨r, hr, hr1, _⟩ := nearest_spec wT w2 t (j * t.mDimensions) hp hvt.centroids_len
      obtain ⟨hidx, _⟩ := hr1 (by rw [e4]; omega)
      obtain ⟨accu, _, _, ha3⟩ := assignPoint_spec wT w2 t (j * t.mDimensions) r hp
        hvt.accu_len hvt.assigned_len hr hidx
      rw [e5] at ha3
      exact ⟨_, ha3, ht.andThen (assignPoint_frame ha3)⟩)
  obtain ⟨t, h1, _⟩ := key
  exact ⟨t, h1⟩

/-- `getSSE` on a valid state whose 32-bit loop bounds do not wrap returns. -/
theorem getSSE_ok (wT w2 fuel : Nat) (st : Kmeans) (hv : Valid st)
    (hd : 1 ≤ st.mDimensions) (hsz : st.mSize * st.mDimensions < 4294967296)
    (hf : st.mSize < fuel) (hfc : st.mClusters < fuel) :
    ∃ v, getSSE wT w2 fuel st = .ok v := by
  unfold getSSE
  rw [wrap32_of_lt hsz]
  have e := strideLoop_eq_forUp st.mDimensions (ssePoint wT w2 fuel st) st.mSize hd hsz
    st.mSize 0 fuel 0 (by omega) hf
  rw [Nat.zero_mul] at e
  rw [e]
  have key := forUp_inv (fun j => ssePoint wT w2 fuel st (j * st.mDimensions))
    (fun _ _ => True) st.mSize 0 0 trivial
    (by
      intro j sse _ hj _
      have hp := point_in_bounds hv (show j < st.mSize from by omega)
      have e2 := strideLoop_eq_forUp st.mDimensions (sseStep wT w2 st (j * st.mDimensions))
        st.mClusters hd hv.no_wrap st.mClusters 0 fuel 0 (by omega) hfc
      rw [Nat.zero_mul] at e2
      have inner := forUp_inv (fun c => sseStep wT w2 st (j * st.mDimensions) (c * st.mDimensions))
        (fun _ _ => True) st.mClusters 0 0 trivial
        (by
          intro c m _ hc _
          have hb := block_in_bounds (show c < st.mClusters from by omega)
          obtain ⟨v, hv2⟩ := euclideanDist_ok wT w2 st.mDimensions st.mPoints
            (j * st.mDimensions) st.mCentroids (c * st.mDimensions) hp
            (by rw [hv.centroids_len]; exact hb)
          by_cases hcond : c * st.mDimensions = 0 ∨ v % 2 ^ wT ≤ m
          · exact ⟨v % 2 ^ wT % 2 ^ w2,
              by simp only [sseStep, hv2, ok_bind, if_pos hcond, pure_eq_ok], trivial⟩
          · exact ⟨m, by simp only [sseStep, hv2, ok_bind, if_neg hcond, pure_eq_ok], trivial⟩)
      obtain ⟨m, hm, _⟩ := inner
      exact ⟨(sse + m) % 2 ^ w2,
        by simp only [ssePoint, wrap32_of_lt hv.no_wrap, e2, hm, ok_bind, pure_eq_ok], trivial⟩)
  obtain ⟨v, h1, _⟩ := key
  exact ⟨v, h1⟩

/-- The first selected index that is not below `mSize` makes `initCentroids` read
outside the point buffer, as long as the 32-bit offset of that read does not wrap. -/
theorem initCentroids_fault_at (st : Kmeans) (hv : Valid st) (hd : 1 ≤ st.mDimensions)
    (hw : 150 * st.mDimensions ≤ 4294967296) (h8 : st.mClusters ≤ 8)
    (c : Nat) (hc : c < st.mClusters) (hge : st.mSize ≤ indx_array.getD c 0)
    (hfirst : ∀ c', c' < c → indx_array.getD c' 0 < st.mSize) :
    initCentroids st = .error .outOfBounds := by
  obtain ⟨rest, hrest⟩ : ∃ rest, st.mClusters = c + (rest + 1) := ⟨st.mClusters - c - 1, by omega⟩
  have first := forUp_inv (initCluster st)
    (fun _ cen => cen.length = st.mClusters * st.mDimensions) c 0 st.mCentroids
    hv.centroids_len
    (by
      intro j t _ hj ht
      obtain ⟨cen, h1, h2, _⟩ := initCluster_spec st hv j (by omega) (by omega)
        (hfirst j (by omega)) t ht
      exact ⟨cen, h1, h2.trans ht⟩)
  obtain ⟨cen, h1, _⟩ := first
  have hr : readAt indx_array c = .ok (indx_array.getD c 0) :=
    readAt_of_lt (by
      have : c < 8 := by omega
      simpa [indx_array] using this)
  have hidx := indx_array_le c
  have hmul : st.mSize * st.mDimensions ≤ indx_array.getD c 0 * st.mDimensions :=
    Nat.mul_le_mul_right _ hge
  have hmul2 : indx_array.getD c 0 * st.mDimensions ≤ 149 * st.mDimensions :=
    Nat.mul_le_mul_right _ hidx
  have hwr : wrap32 (indx_array.getD c 0 * st.mDimensions + 0)
      = indx_array.getD c 0 * st.mDimensions :=
    wrap32_of_lt (by omega)
  have hfail : initCluster st c cen = .error .outOfBounds := by
    obtain ⟨d', hd'⟩ : ∃ d', st.mDimensions = d' + 1 := ⟨st.mDimensions - 1, by omega⟩
    have hread : readAt st.mPoints (indx_array.getD c 0 * st.mDimensions)
        = .error .outOfBounds := readAt_of_ge (by rw [hv.points_len]; exact hmul)
    unfold initCluster
    rw [hr, ok_bind]
    have e : forUp (fun d cen => do
        let v ← readAt st.mPoints (wrap32 (indx_array.getD c 0 * st.mDimensions + d))
        writeAt cen (wrap32 (c * st.mDimensions + d)) v) (d' + 1) 0 cen
        = .error .outOfBounds := by
      simp only [forUp, hwr, hread, error_bind]
    rw [hd'] at e ⊢
    exact e
  unfold initCentroids
  rw [hrest, forUp_append, h1, ok_bind]
  simp only [forUp, Nat.zero_add, hfail, error_bind]

/-- C12 (as stated, refuted): `tieState` satisfies the validity invariants of the
specification (`mDimensions >= 1`, `mClusters >= 1`, `mClusters <= mSize`, a point buffer
of `mSize*mDimensions` elements), and `run` reads the point buffer out of range for
cluster 1, whose selected index is `70`, for every iteration count tried. -/
theorem run_faults_on_two_points :
    Valid tieState ∧ 1 ≤ tieState.mDimensions ∧ 1 ≤ tieState.mClusters ∧
    tieState.mClusters ≤ tieState.mSize ∧
    tieState.mPoints.length = tieState.mSize * tieState.mDimensions ∧
    readAt indx_array 1 = .ok 70 ∧
    readAt tieState.mPoints (wrap32 (70 * tieState.mDimensions + 0)) = .error .outOfBounds ∧
    run 32 64 3 0 tieState = .error .outOfBounds ∧
    run 32 64 3 10 tieState = .error .outOfBounds := by
  decide

/-- C12 (amended): on a valid engine state with `mDimensions >= 1`, `mClusters >= 1`,
at most eight clusters, every selected initialisation index below `mSize` and
`mSize*mDimensions < 2^32`, no access of `run` is out of range: `initCentroids` returns,
and for every iteration count the reset, the assignment step and the update step of the
next iteration return. -/
theorem run_stays_in_bounds (wT w2 fuel : Nat) (st : Kmeans) (hv : Valid st)
    (hd : 1 ≤ st.mDimensions) (hk : 1 ≤ st.mClusters) (h8 : st.mClusters ≤ 8)
    (hidx : ∀ c, c < st.mClusters → indx_array.getD c 0 < st.mSize)
    (hsz : st.mSize * st.mDimensions < 4294967296) (hf : st.mSize < fuel) :
    (∃ s0, initCentroids st = .ok s0) ∧
    ∀ n, ∃ s s1 s2 s3, run wT w2 fuel n st = .ok s ∧ reset s = .ok s1 ∧
      assignment wT w2 fuel s1 = .ok s2 ∧ update s2 = .ok s3 ∧
      run wT w2 fuel (n + 1) st = .ok s3 := by
  refine ⟨?_, ?_⟩
  · obtain ⟨cen, h1, _⟩ := initCentroids_spec st hv h8 hidx
    exact ⟨_, h1⟩
  · intro n
    obtain ⟨s, hs, vs, ⟨_, e2, e3, e4⟩⟩ := run_total wT w2 fuel st hv hd hk hsz hf h8 hidx n
    obtain ⟨s1, s2, s3, h1, h2, _, h4, h5, _⟩ := iteration_total wT w2 fuel s vs
      (by rw [e4]; exact hd) (by rw [e3]; exact hk) (by rw [e2, e4]; exact hsz)
      (by rw [e2]; exact hf)
    exact ⟨s, s1, s2, s3, hs, h1, h2, h4, by rw [run_succ, hs, ok_bind, h5]⟩

theorem run_stays_in_bounds_witness :
    Valid farState ∧
    (∃ s0, initCentroids farState = .ok s0) ∧
    ∀ n, ∃ s s1 s2 s3, run 32 64 3 n farState = .ok s ∧ reset s = .ok s1 ∧
      assignment 32 64 3 s1 = .ok s2 ∧ update s2 = .ok s3 ∧
      run 32 64 3 (n + 1) farState = .ok s3 :=
  ⟨by decide, run_stays_in_bounds 32 64 3 farState (by decide) (by decide) (by decide)
    (by decide) (by decide) (by decide) (by decide)⟩

/-- C13 (as stated, refuted): for one point, zero dimensions and five clusters (the
cluster count exceeds the size and the dimension count is zero) the constructor produces
an engine. -/
theorem construct_accepts_invalid_configuration :
    ¬ (5 ≤ 1) ∧
    construct [7] 1 0 5 (fun _ => 0) (fun _ => 0) (fun _ => 0) =
      { mPoints := [7], mCentroids := [], mAccu := [], mAssigned := [0, 0, 0, 0, 0],
        mSize := 1, mClusters := 5, mDimensions := 0 } := by
  decide

/-- C13 (amended): the constructor validates nothing and never fails: for every point
buffer, size, dimension count and cluster count it produces an engine bound to that
buffer and those three numbers, with centroid and accumulator buffers of
`k*mDimensions mod 2^32` elements and a count buffer of `k` elements; the engine is valid
exactly when the point buffer has `size*dimensions` elements and `k*dimensions < 2^32`. -/
theorem construct_never_fails (points : List Nat) (size dimensions k : Nat)
    (jc ja jn : Nat → Nat) :
    (construct points size dimensions k jc ja jn).mPoints = points ∧
    (construct points size dimensions k jc ja jn).mSize = size ∧
    (construct points size dimensions k jc ja jn).mDimensions = dimensions ∧
    (construct points size dimensions k jc ja jn).mClusters = k ∧
    (construct points size dimensions k jc ja jn).mCentroids.length = wrap32 (k * dimensions) ∧
    (construct points size dimensions k jc ja jn).mAccu.length = wrap32 (k * dimensions) ∧
    (construct points size dimensions k jc ja jn).mAssigned.length = k ∧
    (Valid (construct points size dimensions k jc ja jn) ↔
      points.length = size * dimensions ∧ k * dimensions < 4294967296) := by
  refine ⟨rfl, rfl, rfl, rfl, by simp [construct], by simp [construct], by simp [construct], ?_⟩
  constructor
  · intro h
    exact ⟨h.points_len, h.no_wrap⟩
  · rintro ⟨h1, h2⟩
    exact ⟨h1, by simp [construct, wrap32_of_lt h2], by simp [construct, wrap32_of_lt h2],
      by simp [construct], h2⟩

/-- C14 (as stated, refuted): in `shortState` (three clusters, three points) the index
selected for cluster 1 is `70 >= 3`; `initCentroids` performs no check and reads the point
buffer at offset `70`, outside the buffer, which is the outcome of the step. -/
theorem initCentroids_reads_past_three_points :
    Valid shortState ∧ readAt indx_array 1 = .ok 70 ∧ shortState.mSize ≤ 70 ∧
    readAt shortState.mPoints (wrap32 (70 * shortState.mDimensions + 0))
      = .error .outOfBounds ∧
    initCentroids shortState = .error .outOfBounds := by
  decide

/-- C14 (amended): on a valid engine state with `mDimensions >= 1`, at most eight
clusters and `150*mDimensions <= 2^32`, if some index selected for the clusters
`0 .. mClusters-1` is not below `mSize`, `initCentroids` performs no check: it reads the
point buffer out of range, and that undefined read is its outcome. -/
theorem initCentroids_unchecked_index (st : Kmeans) (hv : Valid st)
    (hd : 1 ≤ st.mDimensions) (hw : 150 * st.mDimensions ≤ 4294967296)
    (h8 : st.mClusters ≤ 8) (c : Nat) (hc : c < st.mClusters)
    (hge : st.mSize ≤ indx_array.getD c 0) :
    initCentroids st = .error .outOfBounds := by
  induction c using Nat.strong_induction_on with
  | _ c ih =>
    by_cases hfirst : ∀ c', c' < c → indx_array.getD c' 0 < st.mSize
    · exact initCentroids_fault_at st hv hd hw h8 c hc hge hfirst
    · push_neg at hfirst
      obtain ⟨c', h1, h2⟩ := hfirst
      exact ih c' h1 (by omega) h2

theorem initCentroids_unchecked_index_witness :
    Valid shortState ∧ 1 ≤ shortState.mDimensions ∧
    150 * shortState.mDimensions ≤ 4294967296 ∧ shortState.mClusters ≤ 8 ∧
    2 < shortState.mClusters ∧ shortState.mSize ≤ indx_array.getD 2 0 ∧
    initCentroids shortState = .error .outOfBounds :=
  ⟨by decide, by decide, by decide, by decide, by decide, by decide,
    initCentroids_unchecked_index shortState (by decide) (by decide) (by decide) (by decide)
      2 (by decide) (by decide)⟩

/-- C17: the assignment step on a valid engine state (with `mDimensions >= 1`,
`mClusters >= 1`, `mSize*mDimensions < 2^32` and more fuel than points) returns a state
whose point buffer, centroid buffer, size, dimension count and cluster count are those
before the step; and whenever the step returns on any state, these five are unchanged
and the accumulator and count buffers keep their lengths. -/
theorem assignment_writes_only_sums (wT w2 fuel : Nat) (st : Kmeans) (hv : Valid st)
    (hd : 1 ≤ st.mDimensions) (hk : 1 ≤ st.mClusters)
    (hsz : st.mSize * st.mDimensions < 4294967296) (hf : st.mSize < fuel) :
    (∃ t, assignment wT w2 fuel st = .ok t ∧ t.mPoints = st.mPoints ∧
      t.mCentroids = st.mCentroids ∧ t.mSize = st.mSize ∧
      t.mDimensions = st.mDimensions ∧ t.mClusters = st.mClusters) ∧
    ∀ s t : Kmeans, assignment wT w2 fuel s = .ok t →
      t.mPoints = s.mPoints ∧ t.mCentroids = s.mCentroids ∧ t.mSize = s.mSize ∧
      t.mDimensions = s.mDimensions ∧ t.mClusters = s.mClusters ∧
      t.mAccu.length = s.mAccu.length ∧ t.mAssigned.length = s.mAssigned.length := by
  refine ⟨?_, ?_⟩
  · obtain ⟨t, h⟩ := assignment_ok wT w2 fuel st hv hd hk hsz hf
    obtain ⟨a1, a2, a3, a4, a5, _, _⟩ := assignment_frame h
    exact ⟨t, h, a1, a2, a3, a5, a4⟩
  · intro s t h
    obtain ⟨a1, a2, a3, a4, a5, a6, a7⟩ := assignment_frame h
    exact ⟨a1, a2, a3, a5, a4, a6, a7⟩

theorem assignment_writes_only_sums_witness :
    Valid tieState ∧
    (∃ t, assignment 32 64 3 tieState = .ok t ∧ t.mPoints = tieState.mPoints ∧
      t.mCentroids = tieState.mCentroids ∧ t.mSize = tieState.mSize ∧
      t.mDimensions = tieState.mDimensions ∧ t.mClusters = tieState.mClusters) ∧
    ∀ s t : Kmeans, assignment 32 64 3 s = .ok t →
      t.mPoints = s.mPoints ∧ t.mCentroids = s.mCentroids ∧ t.mSize = s.mSize ∧
      t.mDimensions = s.mDimensions ∧ t.mClusters = s.mClusters ∧
      t.mAccu.length = s.mAccu.length ∧ t.mAssigned.length = s.mAssigned.length :=
  ⟨by decide, assignment_writes_only_sums 32 64 3 tieState (by decide) (by decide)
    (by decide) (by decide) (by decide)⟩

/-- C18: for the point `j` of a valid engine state with at least one cluster, the cluster
to which the assignment step adds the point is the greatest index `c < mClusters` whose
computed distance equals the minimum computed distance over all clusters; each round of
the scan replaces the running minimum exactly when `c == 0` or `dist <= minDist`. -/
theorem assignment_picks_last_minimum (wT w2 : Nat) (st : Kmeans) (j : Nat)
    (hv : Valid st) (hj : j < st.mSize) (hk : 1 ≤ st.mClusters) :
    (∃ minDist clusterIdx st',
      nearest wT w2 st (j * st.mDimensions) = .ok (minDist, clusterIdx) ∧
      assignPoint wT w2 (j * st.mDimensions) st = .ok st' ∧
      accumulate wT st (j * st.mDimensions) clusterIdx = .ok st'.mAccu ∧
      st'.mAssigned
        = st.mAssigned.set clusterIdx (wrap32 (st.mAssigned.getD clusterIdx 0 + 1)) ∧
      clusterIdx < st.mClusters ∧
      centroidDist wT w2 st (j * st.mDimensions) clusterIdx = .ok minDist ∧
      ∀ c, c < st.mClusters →
        ∃ dc, centroidDist wT w2 st (j * st.mDimensions) c = .ok dc ∧ minDist ≤ dc ∧
          (dc = minDist → c ≤ clusterIdx)) ∧
    ∀ c dist (acc : Nat × Nat), centroidDist wT w2 st (j * st.mDimensions) c = .ok dist →
      nearestStep wT w2 st (j * st.mDimensions) c acc
        = .ok (if c = 0 ∨ dist ≤ acc.1 then (dist, c) else acc) := by
  have hp := point_in_bounds hv hj
  obtain ⟨r, hr, hr1, hr2⟩ := nearest_spec wT w2 st (j * st.mDimensions) hp hv.centroids_len
  obtain ⟨hidx, hdist⟩ := hr1 (by omega)
  obtain ⟨accu, ha1, _, ha3⟩ :=
    assignPoint_spec wT w2 st (j * st.mDimensions) r hp hv.accu_len hv.assigned_len hr hidx
  refine ⟨⟨r.1, r.2, _, hr, ha3, ha1, rfl, hidx, hdist, hr2⟩, ?_⟩
  intro c dist acc h
  by_cases hcond : c = 0 ∨ dist ≤ acc.1
  · simp only [nearestStep, h, ok_bind, if_pos hcond, pure_eq_ok]
  · simp only [nearestStep, h, ok_bind, if_neg hcond, pure_eq_ok]

theorem assignment_picks_last_minimum_witness :
    Valid tieState ∧ 0 < tieState.mSize ∧ 1 ≤ tieState.mClusters ∧
    (∃ minDist clusterIdx st',
      nearest 32 64 tieState (0 * tieState.mDimensions) = .ok (minDist, clusterIdx) ∧
      assignPoint 32 64 (0 * tieState.mDimensions) tieState = .ok st' ∧
      accumulate 32 tieState (0 * tieState.mDimensions) clusterIdx = .ok st'.mAccu ∧
      st'.mAssigned = tieState.mAssigned.set clusterIdx
        (wrap32 (tieState.mAssigned.getD clusterIdx 0 + 1)) ∧
      clusterIdx < tieState.mClusters ∧
      centroidDist 32 64 tieState (0 * tieState.mDimensions) clusterIdx = .ok minDist ∧
      ∀ c, c < tieState.mClusters →
        ∃ dc, centroidDist 32 64 tieState (0 * tieState.mDimensions) c = .ok dc ∧
          minDist ≤ dc ∧ (dc = minDist → c ≤ clusterIdx)) ∧
    ∀ c dist (acc : Nat × Nat),
      centroidDist 32 64 tieState (0 * tieState.mDimensions) c = .ok dist →
      nearestStep 32 64 tieState (0 * tieState.mDimensions) c acc
        = .ok (if c = 0 ∨ dist ≤ acc.1 then (dist, c) else acc) :=
  ⟨by decide, by decide, by decide,
    assignment_picks_last_minimum 32 64 tieState 0 (by decide) (by decide) (by decide)⟩

/-- C20: an engine constructed with `1 <= k <= 8` clusters over a point buffer of
`size*dimensions` elements, with `size >= 150`, `dimensions >= 1` and
`size*dimensions < 2^32`, is valid, and no access of `initCentroids`, of the reset, of
`assignment`, of `update` or of `getSSE` is out of range: for every iteration count `run`
returns, the three steps of the next iteration return, and `getSSE` returns. -/
theorem constructed_engine_stays_in_bounds (wT w2 fuel : Nat) (points : List Nat)
    (size dimensions k : Nat) (jc ja jn : Nat → Nat)
    (hk1 : 1 ≤ k) (hk8 : k ≤ 8) (hs : 150 ≤ size) (hd : 1 ≤ dimensions)
    (hsz : size * dimensions < 4294967296) (hlen : points.length = size * dimensions)
    (hf : size < fuel) :
    Valid (construct points size dimensions k jc ja jn) ∧
    (∀ c, c < k → ∃ idx, readAt indx_array c = .ok idx ∧ idx < size) ∧
    (∃ s0, initCentroids (construct points size dimensions k jc ja jn) = .ok s0) ∧
    ∀ n, ∃ s s1 s2 s3 v,
      run wT w2 fuel n (construct points size dimensions k jc ja jn) = .ok s ∧
      reset s = .ok s1 ∧ assignment wT w2 fuel s1 = .ok s2 ∧ update s2 = .ok s3 ∧
      run wT w2 fuel (n + 1) (construct points size dimensions k jc ja jn) = .ok s3 ∧
      getSSE wT w2 fuel s = .ok v := by
  have hkd : k * dimensions < 4294967296 := by
    have : k * dimensions ≤ size * dimensions := Nat.mul_le_mul_right _ (by omega)
    omega
  have hv : Valid (construct points size dimensions k jc ja jn) :=
    ⟨hlen, by simp [construct, wrap32_of_lt hkd], by simp [construct, wrap32_of_lt hkd],
      by simp [construct], hkd⟩
  have hidx : ∀ c, c < k → indx_array.getD c 0 < size := by
    intro c _
    have := indx_array_le c
    omega
  refine ⟨hv, ?_, ?_, ?_⟩
  · intro c hc
    exact ⟨_, readAt_of_lt (by
      have : c < 8 := by omega
      simpa [indx_array] using this), hidx c hc⟩
  · obtain ⟨cen, h1, _⟩ := initCentroids_spec _ hv hk8 hidx
    exact ⟨_, h1⟩
  · intro n
    obtain ⟨s, hs', vs, ⟨_, e2, e3, e4⟩⟩ := run_total wT w2 fuel _ hv hd hk1 hsz hf hk8 hidx n
    have e2' : s.mSize = size := e2
    have e3' : s.mClusters = k := e3
    have e4' : s.mDimensions = dimensions := e4
    obtain ⟨s1, s2, s3, h1, h2, _, h4, h5, _⟩ := iteration_total wT w2 fuel s vs
      (by rw [e4']; exact hd) (by rw [e3']; exact hk1) (by rw [e2', e4']; exact hsz)
      (by rw [e2']; exact hf)
    obtain ⟨v, h6⟩ := getSSE_ok wT w2 fuel s vs (by rw [e4']; exact hd)
      (by rw [e2', e4']; exact hsz) (by rw [e2']; exact hf) (by rw [e3']; omega)
    exact ⟨s, s1, s2, s3, v, hs', h1, h2, h4, by rw [run_succ, hs', ok_bind, h5], h6⟩

theorem constructed_engine_stays_in_bounds_witness :
    Valid (construct (List.replicate 150 4) 150 1 8 (fun _ => 9) (fun _ => 9) (fun _ => 9)) ∧
    (∀ c, c < 8 → ∃ idx, readAt indx_array c = .ok idx ∧ idx < 150) ∧
    (∃ s0, initCentroids
      (construct (List.replicate 150 4) 150 1 8 (fun _ => 9) (fun _ => 9) (fun _ => 9))
        = .ok s0) ∧
    ∀ n, ∃ s s1 s2 s3 v,
      run 32 64 151 n
        (construct (List.replicate 150 4) 150 1 8 (fun _ => 9) (fun _ => 9) (fun _ => 9))
          = .ok s ∧
      reset s = .ok s1 ∧ assignment 32 64 151 s1 = .ok s2 ∧ update s2 = .ok s3 ∧
      run 32 64 151 (n + 1)
        (construct (List.replicate 150 4) 150 1 8 (fun _ => 9) (fun _ => 9) (fun _ => 9))
          = .ok s3 ∧
      getSSE 32 64 151 s = .ok v :=
  constructed_engine_stays_in_bounds 32 64 151 (List.replicate 150 4) 150 1 8
    (fun _ => 9) (fun _ => 9) (fun _ => 9) (by decide) (by decide) (by decide) (by decide)
    (by decide) (by simp) (by decide)

/-! ## Determinism -/

theorem slot_decompose {k dims i : Nat} (h : i < k * dims) :
    ∃ c d, c < k ∧ d < dims ∧ i = c * dims + d := by
  have hd : 0 < dims := by
    rcases Nat.eq_zero_or_pos dims with h0 | h0
    · rw [h0, Nat.mul_zero] at h; exact absurd h (Nat.not_lt_zero i)
    · exact h0
  refine ⟨i / dims, i % dims, Nat.div_lt_of_lt_mul (by rwa [Nat.mul_comm] at h),
    Nat.mod_lt i hd, ?_⟩
  have := Nat.div_add_mod i dims
  rw [Nat.mul_comm] at this
  exact this.symm

theorem list_eq_of_slots {xs ys : List Nat} {k dims : Nat} (hx : xs.length = k * dims)
    (hy : ys.length = k * dims)
    (h : ∀ c d, c < k → d < dims → xs.getD (c * dims + d) 0 = ys.getD (c * dims + d) 0) :
    xs = ys := by
  apply List.ext_getElem?
  intro i
  rcases Nat.lt_or_ge i (k * dims) with hi | hi
  · obtain ⟨c, d, hc, hd, rfl⟩ := slot_decompose hi
    rw [getElem?_of_lt xs _ (by rw [hx]; exact hi), getElem?_of_lt ys _ (by rw [hy]; exact hi),
      h c d hc hd]
  · rw [List.getElem?_eq_none (by rw [hx]; exact hi),
      List.getElem?_eq_none (by rw [hy]; exact hi)]

/-- The outcome of `initCentroids` is determined by the point buffer and the sizes:
two valid states that agree on them get the same centroid buffer. -/
theorem initCentroids_determined (s1 s2 : Kmeans) (hv1 : Valid s1) (hv2 : Valid s2)
    (hin : SameInput s1 s2) (h8 : s1.mClusters ≤ 8)
    (hidx : ∀ c, c < s1.mClusters → indx_array.getD c 0 < s1.mSize) :
    ∃ cen, initCentroids s1 = .ok { s1 with mCentroids := cen } ∧
      initCentroids s2 = .ok { s2 with mCentroids := cen } := by
  obtain ⟨e1, e2, e3, e4⟩ := hin
  obtain ⟨c1, a1, a2, a3⟩ := initCentroids_spec s1 hv1 h8 hidx
  obtain ⟨c2, b1, b2, b3⟩ := initCentroids_spec s2 hv2 (by rw [e3]; exact h8)
    (by intro c hc; rw [e2]; exact hidx c (by rw [← e3]; exact hc))
  have : c1 = c2 := by
    refine list_eq_of_slots
      (show c1.length = s1.mClusters * s1.mDimensions from by rw [a2, hv1.centroids_len])
      (show c2.length = s1.mClusters * s1.mDimensions from by
        rw [b2, hv2.centroids_len, e3, e4]) ?_
    intro c d hc hd
    have h := b3 c d (by rw [e3]; exact hc) (by rw [e4]; exact hd)
    rw [e4, e1] at h
    rw [a3 c d hc hd, h]
  subst this
  exact ⟨c1, a1, b1⟩

theorem reset_determined {s t : Kmeans} (hs : Valid s) (ht : Valid t)
    (h : SameButSumContents s t) : reset s = reset t := by
  rw [reset_ok hs, reset_ok ht]
  obtain ⟨h1, h2, h3, h4, h5⟩ := h
  cases s
  cases t
  simp only at h1 h2 h3 h4 h5
  subst h1 h2 h3 h4 h5
  rfl

theorem getSSE_determined {s t : Kmeans} (wT w2 fuel : Nat) (h : SameButSumContents s t) :
    getSSE wT w2 fuel s = getSSE wT w2 fuel t := by
  obtain ⟨h1, h2, h3, h4, h5⟩ := h
  cases s
  cases t
  simp only at h1 h2 h3 h4 h5
  subst h1 h2 h3 h4 h5
  rfl

/-- Two valid states that agree on the point buffer and the sizes have the same `run`
outcome up to the accumulator and count buffers left by `run(0)`: the same fault, or
states with the same centroid buffer and the same `getSSE` outcome. -/
theorem run_determined (wT w2 fuel fuel' n : Nat) (s1 s2 : Kmeans) (hv1 : Valid s1)
    (hv2 : Valid s2) (hin : SameInput s1 s2) (h8 : s1.mClusters ≤ 8)
    (hidx : ∀ c, c < s1.mClusters → indx_array.getD c 0 < s1.mSize) :
    Except.map Kmeans.mCentroids (run wT w2 fuel n s1)
      = Except.map Kmeans.mCentroids (run wT w2 fuel n s2) ∧
    (run wT w2 fuel n s1 >>= getSSE wT w2 fuel') = (run wT w2 fuel n s2 >>= getSSE wT w2 fuel') := by
  obtain ⟨cen, a1, a2⟩ := initCentroids_determined s1 s2 hv1 hv2 hin h8 hidx
  have f1 := initCentroids_frame a1
  have f2 := initCentroids_frame a2
  have w1 := f1.preservesValid hv1
  have w2' := f2.preservesValid hv2
  obtain ⟨e1, e2, e3, e4⟩ := hin
  have rel : SameButSumContents { s1 with mCentroids := cen } { s2 with mCentroids := cen } :=
    ⟨e1, rfl, e2, e3, e4⟩
  cases n with
  | zero =>
    have r1 : run wT w2 fuel 0 s1 = .ok { s1 with mCentroids := cen } := by
      simp only [run, a1, ok_bind, runLoop]
    have r2 : run wT w2 fuel 0 s2 = .ok { s2 with mCentroids := cen } := by
      simp only [run, a2, ok_bind, runLoop]
    rw [r1, r2]
    exact ⟨rfl, by rw [ok_bind, ok_bind]; exact getSSE_determined wT w2 fuel' rel⟩
  | succ n =>
    have hit : iteration wT w2 fuel { s1 with mCentroids := cen }
        = iteration wT w2 fuel { s2 with mCentroids := cen } := by
      unfold iteration
      rw [reset_determined w1 w2' rel]
    have r : run wT w2 fuel (n + 1) s1 = run wT w2 fuel (n + 1) s2 := by
      simp only [run, a1, a2, ok_bind, runLoop, hit]
    rw [r]
    exact ⟨rfl, rfl⟩

/-- C11: for two valid engine states bound to the same point buffer, size, dimension
count and cluster count (at most eight clusters, every selected initialisation index
below the size), whatever their centroid, accumulator and count buffers hold, `run(n)`
has the same outcome on the centroid buffer and `getSSE` called afterwards has the same
outcome; when the 32-bit loop bound does not wrap both runs return, with identical
centroid buffers and identical `getSSE` values. -/
theorem run_is_deterministic (wT w2 fuel n : Nat) (s1 s2 : Kmeans) (hv1 : Valid s1)
    (hv2 : Valid s2) (hin : SameInput s1 s2) (h8 : s1.mClusters ≤ 8)
    (hidx : ∀ c, c < s1.mClusters → indx_array.getD c 0 < s1.mSize) :
    Except.map Kmeans.mCentroids (run wT w2 fuel n s1)
      = Except.map Kmeans.mCentroids (run wT w2 fuel n s2) ∧
    (run wT w2 fuel n s1 >>= getSSE wT w2 fuel) = (run wT w2 fuel n s2 >>= getSSE wT w2 fuel) ∧
    (1 ≤ s1.mDimensions → 1 ≤ s1.mClusters → s1.mSize * s1.mDimensions < 4294967296 →
      s1.mSize < fuel → s1.mClusters < fuel →
      ∃ t1 t2 v, run wT w2 fuel n s1 = .ok t1 ∧ run wT w2 fuel n s2 = .ok t2 ∧
        t1.mCentroids = t2.mCentroids ∧
        getSSE wT w2 fuel t1 = .ok v ∧ getSSE wT w2 fuel t2 = .ok v) := by
  obtain ⟨d1, d2⟩ := run_determined wT w2 fuel fuel n s1 s2 hv1 hv2 hin h8 hidx
  refine ⟨d1, d2, ?_⟩
  intro hd hk hsz hf hfc
  obtain ⟨e1, e2, e3, e4⟩ := id hin
  obtain ⟨t1, r1, v1, ⟨_, g2, g3, g4⟩⟩ := run_total wT w2 fuel s1 hv1 hd hk hsz hf h8 hidx n
  obtain ⟨t2, r2, _, _⟩ := run_total wT w2 fuel s2 hv2 (by rw [e4]; exact hd)
    (by rw [e3]; exact hk) (by rw [e2, e4]; exact hsz) (by rw [e2]; exact hf)
    (by rw [e3]; exact h8) (by intro c hc; rw [e2]; exact hidx c (by rw [← e3]; exact hc)) n
  obtain ⟨v, hv⟩ := getSSE_ok wT w2 fuel t1 v1 (by rw [g4]; exact hd)
    (by rw [g2, g4]; exact hsz) (by rw [g2]; exact hf) (by rw [g3]; exact hfc)
  rw [r1, r2] at d1 d2
  rw [ok_bind, ok_bind, hv] at d2
  refine ⟨t1, t2, v, r1, r2, ?_, hv, d2.symm⟩
  simpa [Except.map] using d1

theorem run_is_deterministic_witness :
    Valid farState ∧ Valid usedFarState ∧ SameInput farState usedFarState ∧
    Except.map Kmeans.mCentroids (run 32 64 3 2 farState)
      = Except.map Kmeans.mCentroids (run 32 64 3 2 usedFarState) ∧
    (run 32 64 3 2 farState >>= getSSE 32 64 3)
      = (run 32 64 3 2 usedFarState >>= getSSE 32 64 3) ∧
    (1 ≤ farState.mDimensions → 1 ≤ farState.mClusters →
      farState.mSize * farState.mDimensions < 4294967296 → farState.mSize < 3 →
      farState.mClusters < 3 →
      ∃ t1 t2 v, run 32 64 3 2 farState = .ok t1 ∧ run 32 64 3 2 usedFarState = .ok t2 ∧
        t1.mCentroids = t2.mCentroids ∧
        getSSE 32 64 3 t1 = .ok v ∧ getSSE 32 64 3 t2 = .ok v) :=
  ⟨by decide, by decide, ⟨rfl, rfl, rfl, rfl⟩,
    run_is_deterministic 32 64 3 2 farState usedFarState
      (by decide) (by decide) ⟨rfl, rfl, rfl, rfl⟩ (by decide) (by decide)⟩

/-! ## What the assignment step accumulates -/

theorem SameButSums.contents {s t : Kmeans} (h : SameButSums s t) : SameButSumContents s t :=
  ⟨h.1, h.2.1, h.2.2.1, h.2.2.2.1, h.2.2.2.2.1⟩

theorem nearest_determined {s t : Kmeans} (wT w2 p : Nat) (h : SameButSumContents s t) :
    nearest wT w2 s p = nearest wT w2 t p := by
  obtain ⟨h1, h2, h3, h4, h5⟩ := h
  cases s
  cases t
  simp only at h1 h2 h3 h4 h5
  subst h1 h2 h3 h4 h5
  rfl

theorem blocks_disjoint {c idx dims d i : Nat} (hne : c ≠ idx) (hd : d < dims)
    (hi : i = c * dims + d) : ¬ (idx * dims ≤ i ∧ i < idx * dims + dims) := by
  rcases Nat.lt_or_ge c idx with h | h
  · have := Nat.mul_le_mul_right dims (show c + 1 ≤ idx from h)
    rw [Nat.succ_mul] at this
    omega
  · have h' : idx + 1 ≤ c := by omega
    have := Nat.mul_le_mul_right dims h'
    rw [Nat.succ_mul] at this
    omega

/-- The accumulation loop for the point at offset `p` and the cluster `idx`: every slot of
that cluster grows by the matching coordinate of the point, reduced to `T`, and no other
slot changes. -/
theorem accumulate_spec (wT : Nat) (st : Kmeans) (p idx : Nat) (hv : Valid st)
    (hp : p + st.mDimensions ≤ st.mPoints.length) (hp32 : p + st.mDimensions ≤ 4294967296)
    (hidx : idx < st.mClusters) :
    ∃ accu, accumulate wT st p idx = .ok accu ∧ accu.length = st.mAccu.length ∧
      ∀ i, accu.getD i 0 =
        if idx * st.mDimensions ≤ i ∧ i < idx * st.mDimensions + st.mDimensions
        then (st.mAccu.getD i 0 + st.mPoints.getD (p + (i - idx * st.mDimensions)) 0) % 2 ^ wT
        else st.mAccu.getD i 0 := by
  have hB := block_in_bounds hidx
  have hw := hv.no_wrap
  have hal := hv.accu_len
  have key := forUp_inv (fun d accu => do
      let i := wrap32 (idx * st.mDimensions + d)
      let a ← readAt accu i
      let x ← readAt st.mPoints (wrap32 (p + d))
      writeAt accu i ((a + x) % 2 ^ wT))
    (fun m a => a.length = st.mAccu.length ∧ ∀ i, a.getD i 0 =
      if idx * st.mDimensions ≤ i ∧ i < idx * st.mDimensions + m
      then (st.mAccu.getD i 0 + st.mPoints.getD (p + (i - idx * st.mDimensions)) 0) % 2 ^ wT
      else st.mAccu.getD i 0)
    st.mDimensions 0 st.mAccu
    ⟨rfl, fun i => by rw [if_neg (by omega)]⟩
    (by
      intro m a _ hm ⟨ha1, ha2⟩
      have hk : wrap32 (idx * st.mDimensions + m) = idx * st.mDimensions + m :=
        wrap32_of_lt (by omega)
      have hkl : idx * st.mDimensions + m < a.length := by omega
      have hpw : wrap32 (p + m) = p + m := wrap32_of_lt (by omega)
      have hpl : p + m < st.mPoints.length := by omega
      have hold : a.getD (idx * st.mDimensions + m) 0
          = st.mAccu.getD (idx * st.mDimensions + m) 0 := by
        rw [ha2, if_neg (by omega)]
      refine ⟨a.set (idx * st.mDimensions + m)
        ((a.getD (idx * st.mDimensions + m) 0 + st.mPoints.getD (p + m) 0) % 2 ^ wT),
        ?_, ?_, ?_⟩
      · simp only [hk, hpw, readAt_of_lt hkl, readAt_of_lt hpl, ok_bind, writeAt_of_lt _ hkl]
      · rw [List.length_set]; exact ha1
      · intro i
        rw [getD_set _ _ _ _ hkl]
        by_cases hi : i = idx * st.mDimensions + m
        · have e : i - idx * st.mDimensions = m := by omega
          rw [if_pos hi, if_pos ⟨by omega, by omega⟩, e, hold, hi]
        · rw [if_neg hi, ha2 i]
          by_cases h3 : idx * st.mDimensions ≤ i ∧ i < idx * st.mDimensions + m
          · rw [if_pos h3, if_pos ⟨h3.1, by omega⟩]
          · rw [if_neg h3, if_neg (fun h4 => h3 ⟨h4.1, by omega⟩)])
  obtain ⟨accu, h1, h2, h3⟩ := key
  refine ⟨accu, h1, h2, ?_⟩
  intro i
  rw [h3 i, Nat.zero_add]

theorem assignedTo_zero (wT w2 : Nat) (st : Kmeans) (c : Nat) :
    assignedTo wT w2 st c 0 = [] := rfl

theorem assignedTo_succ (wT w2 : Nat) (st : Kmeans) (c n : Nat) :
    assignedTo wT w2 st c (n + 1)
      = assignedTo wT w2 st c n ++ (if clusterOf wT w2 st n = c then [n] else []) := by
  unfold assignedTo
  rw [List.range_succ, List.filter_append]
  by_cases h : clusterOf wT w2 st n = c
  · simp [h]
  · simp [h]

theorem assignedTo_length_le (wT w2 : Nat) (st : Kmeans) (c n : Nat) :
    (assignedTo wT w2 st c n).length ≤ n := by
  unfold assignedTo
  have := List.length_filter_le (fun j => decide (clusterOf wT w2 st j = c)) (List.range n)
  rwa [List.length_range] at this

theorem assignedTo_lt (wT w2 : Nat) (st : Kmeans) (c n j : Nat)
    (h : j ∈ assignedTo wT w2 st c n) : j < n := by
  unfold assignedTo at h
  exact List.mem_range.mp (List.mem_filter.mp h).1

theorem coordSum_append (points : List Nat) (dims : Nat) (xs ys : List Nat) (d : Nat) :
    coordSum points dims (xs ++ ys) d = coordSum points dims xs d + coordSum points dims ys d := by
  simp [coordSum]

theorem coordSum_single (points : List Nat) (dims j d : Nat) :
    coordSum points dims [j] d = coord points dims j d := by
  simp [coordSum]

theorem coordSum_nil (points : List Nat) (dims d : Nat) : coordSum points dims [] d = 0 := rfl

/-- The assignment step started from zeroed accumulators and counts, on a valid state
whose 32-bit loop bound does not wrap: it returns; the count of every cluster is the
number of points whose scan returns that cluster, and every accumulator slot is the sum
of the matching coordinate over those points, reduced to `T`. -/
theorem assignment_sums (wT w2 fuel : Nat) (st : Kmeans) (hv : Valid st)
    (hd : 1 ≤ st.mDimensions) (hk : 1 ≤ st.mClusters)
    (hsz : st.mSize * st.mDimensions < 4294967296) (hf : st.mSize < fuel)
    (hA : ∀ i, st.mAccu.getD i 0 = 0) (hN : ∀ i, st.mAssigned.getD i 0 = 0) :
    ∃ t, assignment wT w2 fuel st = .ok t ∧ SameButSums st t ∧
      ∀ c, c < st.mClusters →
        t.mAssigned.getD c 0 = (assignedTo wT w2 st c st.mSize).length ∧
        ∀ d, d < st.mDimensions →
          t.mAccu.getD (c * st.mDimensions + d) 0
            = coordSum st.mPoints st.mDimensions (assignedTo wT w2 st c st.mSize) d % 2 ^ wT := by
  have hsize : st.mSize < 4294967296 := by
    have := Nat.le_mul_of_pos_right st.mSize hd
    omega
  unfold assignment
  rw [wrap32_of_lt hsz]
  have e := strideLoop_eq_forUp st.mDimensions (assignPoint wT w2) st.mSize hd hsz
    st.mSize 0 fuel st (by omega) hf
  rw [Nat.zero_mul] at e
  rw [e]
  have key := forUp_inv (fun j => assignPoint wT w2 (j * st.mDimensions))
    (fun j t => SameButSums st t ∧ ∀ c, c < st.mClusters →
      t.mAssigned.getD c 0 = (assignedTo wT w2 st c j).length ∧
      ∀ d, d < st.mDimensions →
        t.mAccu.getD (c * st.mDimensions + d) 0
          = coordSum st.mPoints st.mDimensions (assignedTo wT w2 st c j) d % 2 ^ wT)
    st.mSize 0 st
    ⟨SameButSums.unchanged st, fun c _ => ⟨by rw [hN, assignedTo_zero]; rfl,
      fun d _ => by rw [hA, assignedTo_zero, coordSum_nil]; rfl⟩⟩
    (by
      intro j t _ hj ⟨ht, hinv⟩
      have hjs : j < st.mSize := by omega
      have hvt : Valid t := ht.keepsValid hv
      obtain ⟨e1, e2, e3, e4, e5, _, _⟩ := id ht
      have hp := point_in_bounds hv hjs
      have hpt : j * st.mDimensions + st.mDimensions ≤ t.mPoints.length := by rw [e1]; exact hp
      obtain ⟨r, hr, hr1, _⟩ := nearest_spec wT w2 st (j * st.mDimensions) hp hv.centroids_len
      obtain ⟨hidx, _⟩ := hr1 (by omega)
      have hrt : nearest wT w2 t (j * st.mDimensions) = .ok r := by
        rw [← nearest_determined wT w2 (j * st.mDimensions) ht.contents]; exact hr
      have hcl : clusterOf wT w2 st j = r.2 := by
        unfold clusterOf; rw [hr]
      have hidxt : r.2 < t.mClusters := by rw [e4]; exact hidx
      have hpl := hv.points_len
      obtain ⟨accu, a1, a2, a3⟩ := accumulate_spec wT t (j * st.mDimensions) r.2 hvt
        (by rw [e5]; exact hpt) (by rw [e5]; omega) hidxt
      obtain ⟨accu', b1, _, b3⟩ := assignPoint_spec wT w2 t (j * st.mDimensions) r
        (by rw [e5]; exact hpt) hvt.accu_len hvt.assigned_len hrt hidxt
      have hacc : accu' = accu := by
        rw [a1] at b1; cases b1; rfl
      subst hacc
      refine ⟨_, b3, ht.andThen (assignPoint_frame b3), ?_⟩
      intro c hc
      obtain ⟨hn, hs⟩ := hinv c hc
      have hlen : r.2 < t.mAssigned.length := by rw [hvt.assigned_len]; exact hidxt
      have hle := assignedTo_length_le wT w2 st c j
      refine ⟨?_, ?_⟩
      · show (t.mAssigned.set r.2 (wrap32 (t.mAssigned.getD r.2 0 + 1))).getD c 0 = _
        rw [getD_set _ _ _ _ hlen, assignedTo_succ, hcl]
        by_cases hcr : c = r.2
        · subst hcr
          rw [if_pos rfl, if_pos rfl, hn, List.length_append, List.length_singleton]
          exact wrap32_of_lt (by omega)
        · rw [if_neg hcr, if_neg (fun h => hcr h.symm), hn, List.append_nil]
      · intro d hdd
        show accu'.getD (c * st.mDimensions + d) 0 = _
        rw [a3, e5, assignedTo_succ, hcl]
        by_cases hcr : c = r.2
        · subst hcr
          have e6 : r.2 * st.mDimensions + d - r.2 * st.mDimensions = d := by omega
          rw [if_pos ⟨by omega, by omega⟩, if_pos rfl, hs d hdd, e6, coordSum_append,
            coordSum_single, Nat.mod_add_mod, e1]
          rfl
        · rw [if_neg (blocks_disjoint hcr hdd rfl), if_neg (fun h => hcr h.symm),
            hs d hdd, List.append_nil])
  obtain ⟨t, h1, h2, h3⟩ := key
  refine ⟨t, h1, h2, ?_⟩
  intro c hc
  have := h3 c hc
  rw [Nat.zero_add] at this
  exact this

theorem clusterOf_determined {s t : Kmeans} (wT w2 j : Nat) (h : SameButSumContents s t) :
    clusterOf wT w2 s j = clusterOf wT w2 t j := by
  have e5 := h.2.2.2.2
  unfold clusterOf
  rw [nearest_determined wT w2 _ h, ← e5]

theorem assignedTo_determined {s t : Kmeans} (wT w2 c n : Nat) (h : SameButSumContents s t) :
    assignedTo wT w2 s c n = assignedTo wT w2 t c n := by
  unfold assignedTo
  congr 1
  funext j
  rw [clusterOf_determined wT w2 j h]

theorem getD_replicate_zero (n i : Nat) : (List.replicate n 0).getD i 0 = 0 := by
  rw [List.getD_eq_getElem?_getD, List.getElem?_replicate]
  split <;> rfl

/-- The reset followed by the assignment step, on a valid state whose 32-bit loop bound
does not wrap: both return; counts and accumulators are as in `assignment_sums`, with the
scan taken on the state before the reset. -/
theorem reset_assignment_sums (wT w2 fuel : Nat) (st : Kmeans) (hv : Valid st)
    (hd : 1 ≤ st.mDimensions) (hk : 1 ≤ st.mClusters)
    (hsz : st.mSize * st.mDimensions < 4294967296) (hf : st.mSize < fuel) :
    ∃ s1 s2, reset st = .ok s1 ∧ assignment wT w2 fuel s1 = .ok s2 ∧ SameButSums st s2 ∧
      ∀ c, c < st.mClusters →
        s2.mAssigned.getD c 0 = (assignedTo wT w2 st c st.mSize).length ∧
        ∀ d, d < st.mDimensions →
          s2.mAccu.getD (c * st.mDimensions + d) 0
            = coordSum st.mPoints st.mDimensions (assignedTo wT w2 st c st.mSize) d % 2 ^ wT := by
  have h1 := reset_ok hv
  have f1 := reset_frame h1
  have v1 := f1.keepsValid hv
  obtain ⟨s2, h2, f2, h3⟩ := assignment_sums wT w2 fuel _ v1 hd hk hsz hf
    (fun i => getD_replicate_zero _ i) (fun i => getD_replicate_zero _ i)
  refine ⟨_, s2, h1, h2, f1.andThen f2, ?_⟩
  intro c hc
  have h4 := h3 c hc
  rw [← assignedTo_determined wT w2 c st.mSize f1.contents] at h4
  exact h4

/-- C16 (as stated, refuted): with `T = uint32_t` and `T2 = uint64_t`, both points of
`overflowState` go to cluster 0; the exact sum of their coordinates is `2^32`, which is a
value of `T2`, and after the reset and the assignment step the accumulator holds `0`
(the count is `2`). -/
theorem accumulator_wraps_in_T :
    Valid overflowState ∧
    assignedTo 32 64 overflowState 0 overflowState.mSize = [0, 1] ∧
    coordSum overflowState.mPoints overflowState.mDimensions [0, 1] 0 = 4294967296 ∧
    4294967296 < 2 ^ 64 ∧
    (reset overflowState >>= assignment 32 64 3)
      = .ok { overflowState with mAccu := [0], mAssigned := [2] } := by
  decide

/-- C16 (amended): after an assignment step started from zeroed accumulators and counts
(valid engine state, `mDimensions >= 1`, `mClusters >= 1`, `mSize*mDimensions < 2^32`), for
every cluster `c` the count `mAssigned[c]` is the number of points assigned to `c` in that
step, and for every dimension `d` the accumulator entry is the sum of coordinate `d` over
those points reduced modulo `2^wT`, the accumulators having the coordinate type `T`; it
is the exact sum whenever that sum is representable in `T`. -/
theorem accumulators_hold_sums_in_T (wT w2 fuel : Nat) (st : Kmeans) (hv : Valid st)
    (hd : 1 ≤ st.mDimensions) (hk : 1 ≤ st.mClusters)
    (hsz : st.mSize * st.mDimensions < 4294967296) (hf : st.mSize < fuel) :
    ∃ s1 s2, reset st = .ok s1 ∧ assignment wT w2 fuel s1 = .ok s2 ∧
      ∀ c, c < st.mClusters →
        s2.mAssigned[c]? = some (assignedTo wT w2 st c st.mSize).length ∧
        ∀ d, d < st.mDimensions →
          s2.mAccu[c * st.mDimensions + d]?
            = some (coordSum st.mPoints st.mDimensions (assignedTo wT w2 st c st.mSize) d
                % 2 ^ wT) ∧
          (coordSum st.mPoints st.mDimensions (assignedTo wT w2 st c st.mSize) d < 2 ^ wT →
            s2.mAccu[c * st.mDimensions + d]?
              = some (coordSum st.mPoints st.mDimensions
                  (assignedTo wT w2 st c st.mSize) d)) := by
  obtain ⟨s1, s2, h1, h2, f, h3⟩ := reset_assignment_sums wT w2 fuel st hv hd hk hsz hf
  obtain ⟨_, _, _, _, _, f6, f7⟩ := f
  refine ⟨s1, s2, h1, h2, ?_⟩
  intro c hc
  obtain ⟨hn, hs⟩ := h3 c hc
  refine ⟨?_, ?_⟩
  · rw [getElem?_of_lt _ _ (by rw [f7, hv.assigned_len]; exact hc), hn]
  · intro d hdd
    have hl : c * st.mDimensions + d < s2.mAccu.length := by
      rw [f6, hv.accu_len]; exact slot_in_bounds hc hdd
    have e := hs d hdd
    refine ⟨by rw [getElem?_of_lt _ _ hl, e], ?_⟩
    intro hlt
    rw [getElem?_of_lt _ _ hl, e, Nat.mod_eq_of_lt hlt]

theorem accumulators_hold_sums_in_T_witness :
    Valid overflowState ∧
    ∃ s1 s2, reset overflowState = .ok s1 ∧ assignment 32 64 3 s1 = .ok s2 ∧
      ∀ c, c < overflowState.mClusters →
        s2.mAssigned[c]? = some (assignedTo 32 64 overflowState c overflowState.mSize).length ∧
        ∀ d, d < overflowState.mDimensions →
          s2.mAccu[c * overflowState.mDimensions + d]?
            = some (coordSum overflowState.mPoints overflowState.mDimensions
                (assignedTo 32 64 overflowState c overflowState.mSize) d % 2 ^ 32) ∧
          (coordSum overflowState.mPoints overflowState.mDimensions
              (assignedTo 32 64 overflowState c overflowState.mSize) d < 2 ^ 32 →
            s2.mAccu[c * overflowState.mDimensions + d]?
              = some (coordSum overflowState.mPoints overflowState.mDimensions
                  (assignedTo 32 64 overflowState c overflowState.mSize) d)) :=
  ⟨by decide, accumulators_hold_sums_in_T 32 64 3 overflowState (by decide) (by decide)
    (by decide) (by decide) (by decide)⟩

/-! ## The bounding box of the data -/

theorem coordSum_cons (points : List Nat) (dims j : Nat) (js : List Nat) (d : Nat) :
    coordSum points dims (j :: js) d = coord points dims j d + coordSum points dims js d := by
  simp [coordSum]

theorem coordSum_bounds (points : List Nat) (dims : Nat) (d lo hi : Nat) :
    ∀ js : List Nat, (∀ j, j ∈ js → lo ≤ coord points dims j d ∧ coord points dims j d ≤ hi) →
      lo * js.length ≤ coordSum points dims js d ∧ coordSum points dims js d ≤ hi * js.length := by
  intro js
  induction js with
  | nil => intro _; simp [coordSum]
  | cons j js ih =>
    intro h
    obtain ⟨h1, h2⟩ := h j (List.mem_cons_self j js)
    obtain ⟨i1, i2⟩ := ih (fun k hk => h k (List.mem_cons_of_mem j hk))
    rw [coordSum_cons, List.length_cons, Nat.mul_succ, Nat.mul_succ]
    omega

theorem coordSum_filter_le (points : List Nat) (dims : Nat) (d : Nat) (q : Nat → Bool) :
    ∀ js : List Nat, coordSum points dims (js.filter q) d ≤ coordSum points dims js d := by
  intro js
  induction js with
  | nil => exact Nat.le_refl _
  | cons j js ih =>
    rw [List.filter_cons]
    split
    · rw [coordSum_cons, coordSum_cons]; omega
    · rw [coordSum_cons]; omega

/-- One iteration keeps the centroids inside the bounding box of the data, when no sum
of a coordinate over the points overflows `T`. -/
theorem iteration_keeps_box (wT w2 fuel : Nat) (s : Kmeans) (hv : Valid s)
    (hd : 1 ≤ s.mDimensions) (hk : 1 ≤ s.mClusters)
    (hsz : s.mSize * s.mDimensions < 4294967296) (hf : s.mSize < fuel)
    (hsum : ∀ d, d < s.mDimensions →
      coordSum s.mPoints s.mDimensions (List.range s.mSize) d < 2 ^ wT)
    (hbox : InBox s) :
    ∃ s3, iteration wT w2 fuel s = .ok s3 ∧ Valid s3 ∧ SameInput s s3 ∧ InBox s3 := by
  obtain ⟨s1, s2, h1, h2, f, h3⟩ := reset_assignment_sums wT w2 fuel s hv hd hk hsz hf
  have v2 : Valid s2 := f.keepsValid hv
  obtain ⟨cen, h4, _, h6⟩ := update_spec s2 v2
  have f3 := update_frame h4
  obtain ⟨e1, e2, e3, e4, e5, _, _⟩ := id f
  refine ⟨_, by simp only [iteration, h1, ok_bind, h2, h4], f3.preservesValid v2,
    f.toInput.followedBy f3.asInput, ?_⟩
  intro c d lo hi hc hdd hall
  have hc' : c < s.mClusters := by rw [← e4]; exact hc
  have hd' : d < s.mDimensions := by rw [← e5]; exact hdd
  have hall' : ∀ j, j < s.mSize → lo ≤ coord s.mPoints s.mDimensions j d ∧
      coord s.mPoints s.mDimensions j d ≤ hi := by
    intro j hj
    have := hall j (by show j < s2.mSize; rw [e3]; exact hj)
    dsimp only at this
    rw [e1, e5] at this
    exact this
  have h7 := h6 c d hc hdd
  show lo ≤ cen.getD (c * s2.mDimensions + d) 0 ∧ cen.getD (c * s2.mDimensions + d) 0 ≤ hi
  rw [h7]
  obtain ⟨hn, hs⟩ := h3 c hc'
  by_cases hz : s2.mAssigned.getD c 0 = 0
  · rw [if_neg (by simpa using hz), e2, e5]
    exact hbox c d lo hi hc' hd' hall'
  · rw [if_pos hz, e5, hs d hd', hn]
    have hlen : 0 < (assignedTo wT w2 s c s.mSize).length := by
      rw [← hn]; exact Nat.pos_of_ne_zero hz
    have hle : coordSum s.mPoints s.mDimensions (assignedTo wT w2 s c s.mSize) d
        ≤ coordSum s.mPoints s.mDimensions (List.range s.mSize) d :=
      coordSum_filter_le _ _ _ _ _
    have hmod := Nat.mod_eq_of_lt (Nat.lt_of_le_of_lt hle (hsum d hd'))
    rw [hmod]
    obtain ⟨b1, b2⟩ := coordSum_bounds s.mPoints s.mDimensions d lo hi
      (assignedTo wT w2 s c s.mSize)
      (fun j hj => hall' j (assignedTo_lt wT w2 s c s.mSize j hj))
    exact ⟨(Nat.le_div_iff_mul_le hlen).mpr b1,
      Nat.div_le_of_le_mul (by rw [Nat.mul_comm]; exact b2)⟩

/-- `run` keeps the centroids inside the bounding box of the data for every iteration
count, when the selected indices are below `mSize`, the 32-bit loop bound does not wrap
and no sum of a coordinate over the points overflows `T`. -/
theorem run_keeps_box (wT w2 fuel : Nat) (st : Kmeans) (hv : Valid st)
    (hd : 1 ≤ st.mDimensions) (hk : 1 ≤ st.mClusters) (h8 : st.mClusters ≤ 8)
    (hidx : ∀ c, c < st.mClusters → indx_array.getD c 0 < st.mSize)
    (hsz : st.mSize * st.mDimensions < 4294967296) (hf : st.mSize < fuel)
    (hsum : ∀ d, d < st.mDimensions →
      coordSum st.mPoints st.mDimensions (List.range st.mSize) d < 2 ^ wT) :
    ∀ n, ∃ s, run wT w2 fuel n st = .ok s ∧ Valid s ∧ SameInput st s ∧ InBox s := by
  intro n
  induction n with
  | zero =>
    obtain ⟨cen, h1, _, h3⟩ := initCentroids_spec st hv h8 hidx
    have f := initCentroids_frame h1
    refine ⟨_, by simp only [run, h1, ok_bind, runLoop], f.preservesValid hv, f.asInput, ?_⟩
    intro c d lo hi hc hdd hall
    have hc' : c < st.mClusters := hc
    have hd' : d < st.mDimensions := hdd
    have hp := point_in_bounds hv (hidx c hc')
    have hw : wrap32 (indx_array.getD c 0 * st.mDimensions + d)
        = indx_array.getD c 0 * st.mDimensions + d :=
      wrap32_of_lt (by rw [hv.points_len] at hp; omega)
    show lo ≤ cen.getD (c * st.mDimensions + d) 0 ∧ cen.getD (c * st.mDimensions + d) 0 ≤ hi
    rw [h3 c d hc' hd', hw]
    exact hall (indx_array.getD c 0) (hidx c hc')
  | succ n ih =>
    obtain ⟨s, h1, v, ⟨e1, e2, e3, e4⟩, hbox⟩ := ih
    obtain ⟨s3, h2, v3, f3, b3⟩ := iteration_keeps_box wT w2 fuel s v
      (by rw [e4]; exact hd) (by rw [e3]; exact hk) (by rw [e2, e4]; exact hsz)
      (by rw [e2]; exact hf) (by rw [e1, e2, e4]; exact hsum) hbox
    exact ⟨s3, by rw [run_succ, h1, ok_bind, h2], v3,
      SameInput.followedBy ⟨e1, e2, e3, e4⟩ f3, b3⟩

theorem spikeList_length (a b v : Nat) : (spikeList a b v).length = a + b + 1 := by
  simp [spikeList]; omega

theorem spikeList_getD_at (a b v : Nat) : (spikeList a b v).getD a 0 = v := by
  unfold spikeList
  rw [List.getD_eq_getElem?_getD,
    List.getElem?_append_right (by rw [List.length_replicate]), List.length_replicate,
    Nat.sub_self, List.getElem?_cons_zero]
  rfl

theorem spikeList_getD_ne (a b v i : Nat) (h : i ≠ a) : (spikeList a b v).getD i 0 = 0 := by
  unfold spikeList
  rw [List.getD_eq_getElem?_getD]
  rcases Nat.lt_or_ge i a with hlt | hge
  · rw [List.getElem?_append_left (by rw [List.length_replicate]; exact hlt),
      List.getElem?_replicate_of_lt hlt]
    rfl
  · obtain ⟨k, hk⟩ : ∃ k, i - a = k + 1 := ⟨i - a - 1, by omega⟩
    rw [List.getElem?_append_right (by rw [List.length_replicate]; exact hge),
      List.length_replicate, hk, List.getElem?_cons_succ, List.getElem?_replicate]
    split <;> rfl

theorem spikeList_getD_le (a b v i : Nat) : (spikeList a b v).getD i 0 ≤ v := by
  by_cases h : i = a
  · rw [h, spikeList_getD_at]
  · rw [spikeList_getD_ne a b v i h]; exact Nat.zero_le v

theorem getD_replicate_le (n v i : Nat) : (List.replicate n v).getD i 0 ≤ v := by
  rw [List.getD_eq_getElem?_getD, List.getElem?_replicate]
  split
  · exact Nat.le_refl v
  · exact Nat.zero_le v

/-- The sum of a coordinate over the points is small when every value of the buffer is. -/
theorem coordSum_range_le (points : List Nat) (dims n d hi : Nat)
    (h : ∀ i, points.getD i 0 ≤ hi) : coordSum points dims (List.range n) d ≤ hi * n := by
  have := (coordSum_bounds points dims d 0 hi (List.range n)
    (fun j _ => ⟨Nat.zero_le _, h _⟩)).2
  rwa [List.length_range] at this

/-- C19 (as stated, refuted): `skewState` has 150 points, `61356676 >= 1` dimensions and
two clusters, and no coordinate sum overflows `T = uint32_t`; coordinate 0 of every point
is `0`, and after `run(0)` coordinate 0 of centroid 1 is `5`: the 32-bit offset
`70 * 61356676` wraps to `24`, which is coordinate 24 of point 0. -/
theorem centroid_outside_box_when_offset_wraps :
    Valid skewState ∧ 149 < skewState.mSize ∧ 1 ≤ skewState.mDimensions ∧
    1 ≤ skewState.mClusters ∧ skewState.mClusters ≤ 8 ∧
    (∀ d, d < skewState.mDimensions →
      coordSum skewState.mPoints skewState.mDimensions (List.range skewState.mSize) d
        < 2 ^ 32) ∧
    (∀ j, j < skewState.mSize → coord skewState.mPoints skewState.mDimensions j 0 = 0) ∧
    wrap32 (70 * 61356676 + 0) = 24 ∧
    ∃ s, run 32 64 151 0 skewState = .ok s ∧ s.mCentroids[1 * 61356676 + 0]? = some 5 := by
  have hv : Valid skewState :=
    ⟨by
        show (spikeList 24 9203501375 5).length = 150 * 61356676
        rw [spikeList_length],
      by
        show (List.replicate 122713352 0).length = 2 * 61356676
        rw [List.length_replicate],
      by
        show (List.replicate 122713352 0).length = 2 * 61356676
        rw [List.length_replicate],
      rfl, by decide⟩
  have hidx : ∀ c, c < skewState.mClusters → indx_array.getD c 0 < skewState.mSize := by
    intro c _
    have := indx_array_le c
    show indx_array.getD c 0 < 150
    omega
  have hsum : ∀ d, d < skewState.mDimensions →
      coordSum skewState.mPoints skewState.mDimensions (List.range skewState.mSize) d
        < 2 ^ 32 := by
    intro d _
    have h := coordSum_range_le skewState.mPoints skewState.mDimensions skewState.mSize d 5
      (fun i => spikeList_getD_le 24 9203501375 5 i)
    have e : 5 * skewState.mSize = 750 := rfl
    rw [e] at h
    exact Nat.lt_of_le_of_lt h (by decide)
  have hzero : ∀ j, j < skewState.mSize →
      coord skewState.mPoints skewState.mDimensions j 0 = 0 := by
    intro j hj
    have hj' : j < 150 := hj
    show (spikeList 24 9203501375 5).getD (j * 61356676 + 0) 0 = 0
    exact spikeList_getD_ne 24 9203501375 5 _ (by omega)
  obtain ⟨cen, h1, h2, h3⟩ := initCentroids_spec skewState hv (by decide) hidx
  have h4 := h3 1 0 (by decide) (by decide)
  have hw : wrap32 (indx_array.getD 1 0 * skewState.mDimensions + 0) = 24 := by decide
  have h5 : skewState.mPoints.getD 24 0 = 5 := spikeList_getD_at 24 9203501375 5
  rw [hw, h5] at h4
  have hl : 1 * 61356676 + 0 < cen.length := by
    rw [h2]
    show 1 * 61356676 + 0 < (List.replicate 122713352 0).length
    rw [List.length_replicate]; decide
  have hrun : run 32 64 151 0 skewState = .ok { skewState with mCentroids := cen } := by
    simp only [run, h1, ok_bind, runLoop]
  refine ⟨hv, by decide, by decide, by decide, by decide, hsum, hzero, by decide,
    { skewState with mCentroids := cen }, hrun, ?_⟩
  show cen[1 * 61356676 + 0]? = some 5
  rw [getElem?_of_lt cen _ hl]
  exact congrArg some h4

/-- C19 (amended): on a valid engine state with `mSize > 149`, `mDimensions >= 1`,
`1 <= mClusters <= 8`, `mSize*mDimensions < 2^32` and coordinate sums over the points that
do not overflow the accumulator type `T`, for every iteration count `n`, `run(n)` returns
and every centroid coordinate `mCentroids[c*mDimensions+d]` lies in every interval that
contains coordinate `d` of all the points, that is, between the minimum and the maximum
of coordinate `d` over the point set. -/
theorem centroids_stay_in_data_box (wT w2 fuel n : Nat) (st : Kmeans) (hv : Valid st)
    (hs : 149 < st.mSize) (hd : 1 ≤ st.mDimensions) (hk : 1 ≤ st.mClusters)
    (h8 : st.mClusters ≤ 8) (hsz : st.mSize * st.mDimensions < 4294967296)
    (hf : st.mSize < fuel)
    (hsum : ∀ d, d < st.mDimensions →
      coordSum st.mPoints st.mDimensions (List.range st.mSize) d < 2 ^ wT) :
    ∃ s, run wT w2 fuel n st = .ok s ∧
      ∀ c d lo hi, c < st.mClusters → d < st.mDimensions →
        (∀ j, j < st.mSize → lo ≤ coord st.mPoints st.mDimensions j d ∧
          coord st.mPoints st.mDimensions j d ≤ hi) →
        ∃ v, s.mCentroids[c * st.mDimensions + d]? = some v ∧ lo ≤ v ∧ v ≤ hi := by
  have hidx : ∀ c, c < st.mClusters → indx_array.getD c 0 < st.mSize := by
    intro c _
    have := indx_array_le c
    omega
  obtain ⟨s, h1, v, ⟨e1, e2, e3, e4⟩, hbox⟩ :=
    run_keeps_box wT w2 fuel st hv hd hk h8 hidx hsz hf hsum n
  refine ⟨s, h1, ?_⟩
  intro c d lo hi hc hdd hall
  have hb := hbox c d lo hi (by rw [e3]; exact hc) (by rw [e4]; exact hdd)
    (by rw [e1, e2, e4]; exact hall)
  rw [e4] at hb
  have hl : c * st.mDimensions + d < s.mCentroids.length := by
    rw [v.centroids_len, e3, e4]; exact slot_in_bounds hc hdd
  exact ⟨_, getElem?_of_lt _ _ hl, hb⟩

theorem centroids_stay_in_data_box_witness :
    ∃ s, run 32 64 151 3 flatState = .ok s ∧
      ∀ c d lo hi, c < flatState.mClusters → d < flatState.mDimensions →
        (∀ j, j < flatState.mSize → lo ≤ coord flatState.mPoints flatState.mDimensions j d ∧
          coord flatState.mPoints flatState.mDimensions j d ≤ hi) →
        ∃ v, s.mCentroids[c * flatState.mDimensions + d]? = some v ∧ lo ≤ v ∧ v ≤ hi :=
  centroids_stay_in_data_box 32 64 151 3 flatState
    ⟨by simp [flatState], by simp [flatState], by simp [flatState], by simp [flatState],
      by decide⟩
    (by decide) (by decide) (by decide) (by decide) (by decide) (by decide)
    (by
      intro d _
      have h := coordSum_range_le flatState.mPoints flatState.mDimensions flatState.mSize d 4
        (fun i => getD_replicate_le 150 4 i)
      have e : 4 * flatState.mSize = 600 := rfl
      rw [e] at h
      exact Nat.lt_of_le_of_lt h (by decide))

/-! ## The end-to-end scenario -/

set_option maxRecDepth 1000000 in
theorem drift_valid : Valid driftState := by
  decide

set_option maxRecDepth 1000000 in
set_option maxHeartbeats 4000000 in
theorem drift_init : initCentroids driftState = .ok driftInit := by
  decide

set_option maxRecDepth 1000000 in
set_option maxHeartbeats 40000000 in
theorem drift_first_iteration : iteration 32 64 151 driftInit = .ok driftFixed := by
  decide

set_option maxRecDepth 1000000 in
set_option maxHeartbeats 40000000 in
theorem drift_later_iteration : iteration 32 64 151 driftFixed = .ok driftFixed := by
  decide

set_option maxRecDepth 1000000 in
set_option maxHeartbeats 40000000 in
theorem drift_sse_init : getSSE 32 64 151 driftInit = .ok 1 := by
  decide

set_option maxRecDepth 1000000 in
set_option maxHeartbeats 40000000 in
theorem drift_sse_fixed : getSSE 32 64 151 driftFixed = .ok 142 := by
  decide

theorem drift_run_zero : run 32 64 151 0 driftState = .ok driftInit := by
  simp only [run, drift_init, ok_bind, runLoop]

theorem drift_run_succ (n : Nat) : run 32 64 151 (n + 1) driftState = .ok driftFixed := by
  induction n with
  | zero => rw [run_succ, drift_run_zero, ok_bind, drift_first_iteration]
  | succ n ih => rw [run_succ, ih, ok_bind, drift_later_iteration]

/-- C15 (as stated, refuted): `driftState` is a buffer of 150 two-dimensional points with
eight clusters. `getSSE` after `run(0)` is `1`; the first iteration moves centroid 0 from
`(1, 0)` to the truncated mean `(0, 0)` of its 143 points, every later iteration leaves
the state as it is, and `getSSE` after `run(10)` is `142`, which is greater. -/
theorem sse_grows_after_ten_iterations :
    Valid driftState ∧ driftState.mSize = 150 ∧ driftState.mDimensions = 2 ∧
    driftState.mClusters = 8 ∧
    run 32 64 151 0 driftState = .ok driftInit ∧ getSSE 32 64 151 driftInit = .ok 1 ∧
    run 32 64 151 10 driftState = .ok driftFixed ∧ getSSE 32 64 151 driftFixed = .ok 142 ∧
    driftFixed.mAssigned.sum = 150 ∧ ¬ (142 ≤ 1) :=
  ⟨drift_valid, rfl, rfl, rfl, drift_run_zero, drift_sse_init, drift_run_succ 9,
    drift_sse_fixed, by decide, by decide⟩

/-- C15 (amended): for every valid engine over a buffer of 150 two-dimensional points
with eight clusters, in each of the 10 iterations of `run(10)` the reset, the assignment
step and the update step return and the counts after the assignment step sum to 150;
`getSSE` returns a value after `run(0)` and after `run(10)`. No order between the two
values is claimed. -/
theorem end_to_end_counts (wT w2 fuel : Nat) (st : Kmeans) (hv : Valid st)
    (hs : st.mSize = 150) (hd : st.mDimensions = 2) (hk : st.mClusters = 8)
    (hf : 150 < fuel) :
    (∀ n, n < 10 → ∃ s s1 s2 s3, run wT w2 fuel n st = .ok s ∧ reset s = .ok s1 ∧
      assignment wT w2 fuel s1 = .ok s2 ∧ s2.mAssigned.sum = 150 ∧ update s2 = .ok s3 ∧
      run wT w2 fuel (n + 1) st = .ok s3) ∧
    ∃ s0 s10 v0 v10, run wT w2 fuel 0 st = .ok s0 ∧ run wT w2 fuel 10 st = .ok s10 ∧
      getSSE wT w2 fuel s0 = .ok v0 ∧ getSSE wT w2 fuel s10 = .ok v10 := by
  have hd1 : 1 ≤ st.mDimensions := by omega
  have hk1 : 1 ≤ st.mClusters := by omega
  have hk8 : st.mClusters ≤ 8 := by omega
  have hsz : st.mSize * st.mDimensions < 4294967296 := by rw [hs, hd]; decide
  have hf' : st.mSize < fuel := by omega
  have hidx : ∀ c, c < st.mClusters → indx_array.getD c 0 < st.mSize := by
    intro c _
    have := indx_array_le c
    omega
  have total := run_total wT w2 fuel st hv hd1 hk1 hsz hf' hk8 hidx
  have sse : ∀ s, Valid s → SameInput st s → ∃ v, getSSE wT w2 fuel s = .ok v := by
    intro s vs ⟨_, e2, e3, e4⟩
    exact getSSE_ok wT w2 fuel s vs (by rw [e4]; exact hd1) (by rw [e2, e4]; exact hsz)
      (by rw [e2]; exact hf') (by rw [e3]; omega)
  refine ⟨?_, ?_⟩
  · intro n _
    obtain ⟨s, h1, vs, ⟨_, e2, e3, e4⟩⟩ := total n
    obtain ⟨s1, s2, s3, a1, a2, a3, a4, a5, _⟩ := iteration_total wT w2 fuel s vs
      (by rw [e4]; exact hd1) (by rw [e3]; exact hk1) (by rw [e2, e4]; exact hsz)
      (by rw [e2]; exact hf')
    exact ⟨s, s1, s2, s3, h1, a1, a2, by rw [a3, e2, hs], a4,
      by rw [run_succ, h1, ok_bind, a5]⟩
  · obtain ⟨s0, h0, v0, i0⟩ := total 0
    obtain ⟨s10, h10, v10, i10⟩ := total 10
    obtain ⟨x0, hx0⟩ := sse s0 v0 i0
    obtain ⟨x10, hx10⟩ := sse s10 v10 i10
    exact ⟨s0, s10, x0, x10, h0, h10, hx0, hx10⟩

theorem end_to_end_counts_witness :
    Valid driftState ∧
    (∀ n, n < 10 → ∃ s s1 s2 s3, run 32 64 151 n driftState = .ok s ∧ reset s = .ok s1 ∧
      assignment 32 64 151 s1 = .ok s2 ∧ s2.mAssigned.sum = 150 ∧ update s2 = .ok s3 ∧
      run 32 64 151 (n + 1) driftState = .ok s3) ∧
    ∃ s0 s10 v0 v10, run 32 64 151 0 driftState = .ok s0 ∧
      run 32 64 151 10 driftState = .ok s10 ∧
      getSSE 32 64 151 s0 = .ok v0 ∧ getSSE 32 64 151 s10 = .ok v10 :=
  ⟨drift_valid, end_to_end_counts 32 64 151 driftState drift_valid rfl rfl rfl (by decide)⟩

end KmeansSw
